import Mathlib

/-!
# gcollections: priority queue and FIFO queue

A shallow embedding of `priority_queue.go` and `queue.go`.

* An `*Item` is an address (`Ptr`) into an explicit memory `Ptr → Item V`, so that two slots
  of a queue may hold the same item and writes through one are seen through the other.
  Addresses are never nil.
* A `PriorityQueue` is the slice of addresses. Slice indices and the `index` field are Go
  `int`s, embedded as `Int`; an index outside the slice is the runtime fault
  `Fault.indexOutOfRange`.
* `heap.up`, `heap.down`, `heap.Init`, `heap.Push`, `heap.Pop`, `heap.Fix` are the functions of
  the Go standard library package `container/heap`, specialised to the `heap.Interface`
  methods of `PriorityQueue`. Their `for` loops take a fuel argument; running out of fuel is
  the distinct fault `Fault.outOfFuel`; the specifications of the operations show that the
  fuel given is enough.
* A `Queue` is the `container/list` list of its values, front first, and every operation is
  one step on it. A `LockedQueue` is the same queue with the field `mut` in the state and a
  record of the lock, unlock, read and write events of each call; goroutines are not
  modelled.
-/

namespace Gcollections

/-! ## Memory model -/

/-- A run either completes or stops with one of these faults. -/
inductive Fault where
  | indexOutOfRange
  | nilDereference
  | outOfFuel
  deriving DecidableEq, Repr

/-- The address of an `Item`. -/
abbrev Ptr := Nat

/-- An Item is something we manage in a priority queue. -/
structure Item (V : Type) where
  Value : V
  Priority : Int
  index : Int

/-- A PriorityQueue holds (addresses of) Items. -/
abbrev PriorityQueue := List Ptr

/-- The program state: the memory holding every `Item`, and the slice `*pq`. -/
structure Store (V : Type) where
  mem : Ptr → Item V
  pq : PriorityQueue

variable {V : Type}

/-- The slice read `pq[i]`. -/
def PriorityQueue.idx (pq : PriorityQueue) (i : Int) : Except Fault Ptr :=
  if i < 0 then .error .indexOutOfRange
  else match pq.get? i.toNat with
    | some p => .ok p
    | none => .error .indexOutOfRange

/-- The write `p.index = i`. -/
def setIndex (mem : Ptr → Item V) (p : Ptr) (i : Int) : Ptr → Item V :=
  Function.update mem p { mem p with index := i }

/-- The writes `p.Value = v; p.Priority = prio`. -/
def setValuePriority (mem : Ptr → Item V) (p : Ptr) (v : V) (prio : Int) : Ptr → Item V :=
  Function.update mem p { mem p with Value := v, Priority := prio }

/-! ## `heap.Interface` methods of `PriorityQueue` -/

/-- Method `Len`. -/
def PriorityQueue.Len (s : Store V) : Int := s.pq.length

/-- Method `Less`: `pq[i].Priority > pq[j].Priority`. -/
def PriorityQueue.Less (s : Store V) (i j : Int) : Except Fault Bool := do
  let a ← s.pq.idx i
  let b ← s.pq.idx j
  pure (decide ((s.mem a).Priority > (s.mem b).Priority))

/-- Method `Swap`: `pq[i], pq[j] = pq[j], pq[i]; pq[i].index = i; pq[j].index = j`. -/
def PriorityQueue.Swap (s : Store V) (i j : Int) : Except Fault (Store V) := do
  let a ← s.pq.idx i
  let b ← s.pq.idx j
  let pq1 := (s.pq.set i.toNat b).set j.toNat a
  let pi ← PriorityQueue.idx pq1 i
  let m1 := setIndex s.mem pi i
  let pj ← PriorityQueue.idx pq1 j
  let m2 := setIndex m1 pj j
  pure { mem := m2, pq := pq1 }

/-- Method `Push`: `n := len(*pq); item.index = n; *pq = append(*pq, item)`. -/
def PriorityQueue.Push (s : Store V) (x : Ptr) : Store V :=
  { mem := setIndex s.mem x s.pq.length, pq := s.pq ++ [x] }

/-- Method `Pop`: `item := old[n-1]; item.index = -1; *pq = old[0 : n-1]; return item`. -/
def PriorityQueue.Pop (s : Store V) : Except Fault (Ptr × Store V) := do
  let n : Int := s.pq.length
  let item ← s.pq.idx (n - 1)
  pure (item, { mem := setIndex s.mem item (-1), pq := s.pq.take (n - 1).toNat })

/-! ## Package `container/heap` -/

/-- The loop of `heap.up(h, j)`. -/
def heap.upLoop : Nat → Store V → Int → Except Fault (Store V)
  | 0, _, _ => .error .outOfFuel
  | fuel + 1, s, j =>
    let i := Int.tdiv (j - 1) 2 -- parent
    if i = j then .ok s
    else do
      let b ← PriorityQueue.Less s j i
      if !b then .ok s
      else do
        let s1 ← PriorityQueue.Swap s i j
        heap.upLoop fuel s1 i

/-- Function `heap.up(h, j)`. -/
def heap.up (s : Store V) (j : Int) : Except Fault (Store V) :=
  heap.upLoop (s.pq.length + 1) s j

/-- The loop of `heap.down(h, i0, n)`, from the current `i`; it returns the final `i`. -/
def heap.downLoop : Nat → Store V → Int → Int → Except Fault (Store V × Int)
  | 0, _, _, _ => .error .outOfFuel
  | fuel + 1, s, i, n =>
    let j1 := 2 * i + 1
    if j1 ≥ n ∨ j1 < 0 then .ok (s, i)
    else do
      let j2 := j1 + 1
      let b2 ← if j2 < n then PriorityQueue.Less s j2 j1 else pure false
      let j := if b2 then j2 else j1
      let b ← PriorityQueue.Less s j i
      if !b then .ok (s, i)
      else do
        let s1 ← PriorityQueue.Swap s i j
        heap.downLoop fuel s1 j n

/-- Function `heap.down(h, i0, n)`: it reports whether the element moved (`i > i0`). -/
def heap.down (s : Store V) (i0 n : Int) : Except Fault (Store V × Bool) := do
  let r ← heap.downLoop (s.pq.length + 1) s i0 n
  pure (r.1, decide (r.2 > i0))

/-- The loop of `heap.Init`: `for i := n/2 - 1; i >= 0; i-- { down(h, i, n) }`, the counter
`k` being `i + 1`. -/
def heap.initLoop : Nat → Store V → Int → Except Fault (Store V)
  | 0, s, _ => .ok s
  | k + 1, s, n => do
    let r ← heap.down s k n
    heap.initLoop k r.1 n

/-- Function `heap.Init(h)`. -/
def heap.Init (s : Store V) : Except Fault (Store V) :=
  let n := PriorityQueue.Len s
  heap.initLoop (Int.tdiv n 2).toNat s n

/-- Function `heap.Push(h, x)`. -/
def heap.Push (s : Store V) (x : Ptr) : Except Fault (Store V) :=
  let s1 := PriorityQueue.Push s x
  heap.up s1 (PriorityQueue.Len s1 - 1)

/-- Function `heap.Pop(h)`. -/
def heap.Pop (s : Store V) : Except Fault (Ptr × Store V) := do
  let n := PriorityQueue.Len s - 1
  let s1 ← PriorityQueue.Swap s 0 n
  let r ← heap.down s1 0 n
  PriorityQueue.Pop r.1

/-- Function `heap.Fix(h, i)`. -/
def heap.Fix (s : Store V) (i : Int) : Except Fault (Store V) := do
  let r ← heap.down s i (PriorityQueue.Len s)
  if !r.2 then heap.up r.1 i else pure r.1

/-! ## Exported operations of `priority_queue.go` -/

/-- Method `UpdateItem` modifies the priority and value of an Item in the queue. -/
def UpdateItem (s : Store V) (item : Ptr) (value : V) (priority : Int) :
    Except Fault (Store V) :=
  let mem1 := setValuePriority s.mem item value priority
  heap.Fix { s with mem := mem1 } (mem1 item).index

/-- The loop of `NewPriorityQueue`: `pq[i] = items[i]; pq[i].index = i` for the items from
slot `i` on. -/
def fillLoop (mem : Ptr → Item V) : List Ptr → Int → Ptr → Item V
  | [], _ => mem
  | p :: rest, i => fillLoop (setIndex mem p i) rest (i + 1)

/-- Function `NewPriorityQueue(items...)`, run in memory `mem`. -/
def NewPriorityQueue (mem : Ptr → Item V) (items : List Ptr) : Except Fault (Store V) :=
  heap.Init { mem := fillLoop mem items 0, pq := items }

/-- Method `PushItem`. -/
def PushItem (s : Store V) (item : Ptr) : Except Fault (Store V) :=
  heap.Push s item

/-- Method `PopItem`. -/
def PopItem (s : Store V) : Except Fault (Ptr × Store V) :=
  heap.Pop s

/-! ## Sequences of priority-queue operations -/

/-- One call on a priority queue. -/
inductive Op (V : Type) where
  | push (item : Ptr)
  | pop
  | update (item : Ptr) (value : V) (priority : Int)

/-- Run one call; a `pop` also yields the item returned. -/
def applyOp (s : Store V) : Op V → Except Fault (Option Ptr × Store V)
  | .push item => do
    let t ← PushItem s item
    pure (none, t)
  | .pop => do
    let r ← PopItem s
    pure (some r.1, r.2)
  | .update item value priority => do
    let t ← UpdateItem s item value priority
    pure (none, t)

/-- Run the calls one after another; the items returned by the `pop`s are collected in
order. -/
def runOps : Store V → List (Op V) → Except Fault (List Ptr × Store V)
  | s, [] => .ok ([], s)
  | s, op :: rest => do
    let r ← applyOp s op
    let r2 ← runOps r.2 rest
    pure (r.1.toList ++ r2.1, r2.2)

/-- The call respects the usage the queue is written for: an item is pushed only when it is
not in the queue, a pop needs a non-empty queue, an update needs a contained item. -/
def opOk (s : Store V) : Op V → Bool
  | .push item => decide (item ∉ s.pq)
  | .pop => decide (s.pq ≠ [])
  | .update item _ _ => decide (item ∈ s.pq)

/-- Every call of the sequence respects `opOk` in the state it is made in. -/
def admissible : Store V → List (Op V) → Bool
  | _, [] => true
  | s, op :: rest =>
    opOk s op &&
      match applyOp s op with
      | .ok r => admissible r.2 rest
      | .error _ => false

/-- The sequence is admissible on the queue that `NewPriorityQueue(items...)` builds. -/
def admissibleFrom (mem : Ptr → Item V) (items : List Ptr) (ops : List (Op V)) : Bool :=
  match NewPriorityQueue mem items with
  | .ok s => admissible s ops
  | .error _ => false

/-! ## `queue.go` -/

/-- A Queue: the values of the list `data`, front first. -/
structure Queue (V : Type) where
  data : List V

/-- Function `NewQueue`. -/
def NewQueue : Queue V := { data := [] }

/-- Method `Push`: `queue.data.PushFront(v)`. -/
def Queue.Push (queue : Queue V) (v : V) : Queue V := { data := v :: queue.data }

/-- Method `IsEmpty`: `queue.data.Len() > 0` gives false, otherwise true. -/
def Queue.IsEmpty (queue : Queue V) : Bool :=
  if queue.data.length > 0 then false else true

/-- Method `Pop`: `elem := queue.data.Back(); queue.data.Remove(elem); return elem.Value, true`
when the queue is not empty, `return nil, false` when it is. `Back()` of an empty list is nil,
and reading through it would be a nil dereference. -/
def Queue.Pop (queue : Queue V) : Except Fault ((Option V × Bool) × Queue V) :=
  if queue.IsEmpty then .ok ((none, false), queue)
  else
    match queue.data.getLast? with
    | none => .error .nilDereference
    | some value => .ok ((some value, true), { data := queue.data.dropLast })

/-- Method `Size`: `queue.data.Len()`. -/
def Queue.Size (queue : Queue V) : Int := queue.data.length

/-- One call on a Queue. -/
inductive QOp (V : Type) where
  | push (v : V)
  | pop

/-- Run the calls one after another; the results of the `Pop`s are collected in order. -/
def Queue.run : Queue V → List (QOp V) → Except Fault (List (Option V × Bool) × Queue V)
  | queue, [] => .ok ([], queue)
  | queue, .push v :: rest => Queue.run (queue.Push v) rest
  | queue, .pop :: rest => do
    let r ← queue.Pop
    let r2 ← Queue.run r.2 rest
    pure (r.1 :: r2.1, r2.2)

/-- The abstract FIFO list of the specification: `Push(v)` appends `v` at the tail. -/
def specPush (l : List V) (v : V) : List V := l ++ [v]

/-- The abstract FIFO list of the specification: `Pop` removes and returns the head with
`ok = true`, or returns `ok = false` with no value and no change when the list is empty. -/
def specPop : List V → (Option V × Bool) × List V
  | [] => ((none, false), [])
  | v :: rest => ((some v, true), rest)

/-- Run the calls on the abstract FIFO list. -/
def specRun : List V → List (QOp V) → List (Option V × Bool) × List V
  | l, [] => ([], l)
  | l, .push v :: rest => specRun (specPush l v) rest
  | l, .pop :: rest =>
    let r := specPop l
    let r2 := specRun r.2 rest
    (r.1 :: r2.1, r2.2)

/-- The number of `Push` calls in a sequence. -/
def countPush : List (QOp V) → Nat
  | [] => 0
  | .push _ :: rest => countPush rest + 1
  | .pop :: rest => countPush rest

/-- The number of successful `Pop` results in a list of results. -/
def countOk (outs : List (Option V × Bool)) : Nat := (outs.filter (fun r => r.2)).length

/-! ## Invariants and proof vocabulary -/

/-- The item stored at slot `k` of the queue (address `0` beyond the end). -/
def slot (s : Store V) (k : Nat) : Ptr := s.pq.getD k 0

/-- The `Priority` of the item stored at slot `k`. -/
def prioAt (s : Store V) (k : Nat) : Int := (s.mem (slot s k)).Priority

/-- The max-heap invariant: the priority at every non-root slot `k` is at most the priority at
its parent slot `(k - 1) / 2`. -/
def HeapInv (s : Store V) : Prop :=
  ∀ k, k < s.pq.length → 0 < k → prioAt s k ≤ prioAt s ((k - 1) / 2)

/-- The index invariant: the item stored at slot `k` has `index` field `k`. -/
def IndexInv (s : Store V) : Prop :=
  ∀ k, k < s.pq.length → (s.mem (slot s k)).index = (k : Int)

instance (s : Store V) : Decidable (HeapInv s) :=
  inferInstanceAs (Decidable (∀ k, k < s.pq.length → 0 < k → prioAt s k ≤ prioAt s ((k - 1) / 2)))

instance (s : Store V) : Decidable (IndexInv s) :=
  inferInstanceAs (Decidable (∀ k, k < s.pq.length → (s.mem (slot s k)).index = (k : Int)))

/-- The state after a `Swap` of two slots that are inside the slice. -/
def swapStore (s : Store V) (a b : Nat) : Store V :=
  let pq1 := (s.pq.set a (slot s b)).set b (slot s a)
  { mem := setIndex (setIndex s.mem (pq1.getD a 0) a) (pq1.getD b 0) b, pq := pq1 }

/-- State `t` holds the items of `s`, rearranged: the slice is a permutation, no `Value` or
`Priority` changed, items outside the queue are untouched, and the index invariant carries
over. -/
structure Rearranged (s t : Store V) : Prop where
  perm : t.pq.Perm s.pq
  value : ∀ p, (t.mem p).Value = (s.mem p).Value
  priority : ∀ p, (t.mem p).Priority = (s.mem p).Priority
  frame : ∀ p, p ∉ s.pq → t.mem p = s.mem p
  index : IndexInv s → IndexInv t

/-- Heap order of a priority function on the slots below `n`, restricted to the edges whose
parent slot is at least `lo`. -/
def HeapF (f : Nat → Int) (n lo : Nat) : Prop :=
  ∀ c, 0 < c → c < n → lo ≤ (c - 1) / 2 → f c ≤ f ((c - 1) / 2)

/-- What `heap.down` from slot `i` needs: every edge not touching `i` is in order, and the
children of `i` are at most the parent of `i`. -/
def DownPreF (f : Nat → Int) (n lo i : Nat) : Prop :=
  (∀ c, 0 < c → c < n → lo ≤ (c - 1) / 2 → (c - 1) / 2 ≠ i → c ≠ i → f c ≤ f ((c - 1) / 2)) ∧
  (0 < i → lo ≤ (i - 1) / 2 → ∀ c, 0 < c → c < n → (c - 1) / 2 = i → f c ≤ f ((i - 1) / 2))

/-- What `heap.up` from slot `j` needs: every edge except the one from `j` to its parent is in
order, and the children of `j` are at most the parent of `j`. -/
def UpPreF (f : Nat → Int) (n j : Nat) : Prop :=
  (∀ c, 0 < c → c < n → c ≠ j → f c ≤ f ((c - 1) / 2)) ∧
  (0 < j → ∀ c, 0 < c → c < n → (c - 1) / 2 = j → f c ≤ f ((j - 1) / 2))

/-- The children of slot `i` below `n` are at most slot `i`. -/
def ChildrenLe (f : Nat → Int) (n i : Nat) : Prop :=
  ∀ c, 0 < c → c < n → (c - 1) / 2 = i → f c ≤ f i

/-- What a run of `heap.down` from slot `i` to slot `j` below bound `n` establishes. -/
structure DownPost (s t : Store V) (i j n : Nat) : Prop where
  rel : Rearranged s t
  ge : i ≤ j
  lt : i < n → j < n
  outside : ∀ k, n ≤ k → slot t k = slot s k
  moved : slot t j = slot s i
  stay : j = i → t = s
  children : ChildrenLe (prioAt t) n j
  heap : ∀ lo, lo ≤ i → DownPreF (prioAt s) n lo i → i < j → HeapF (prioAt t) n lo

/-- The child of slot `i` that `heap.down` compares with slot `i`: the right child when it is
below `n` and has the greater priority, the left child otherwise. -/
def biggerChild (s : Store V) (i n : Nat) : Nat :=
  if 2 * i + 2 < n ∧ prioAt s (2 * i + 1) < prioAt s (2 * i + 2) then 2 * i + 2 else 2 * i + 1

/-- What a run of `heap.up` from slot `j`, ending at slot `i`, establishes. -/
structure UpPost (s t : Store V) (j i : Nat) : Prop where
  rel : Rearranged s t
  le : i ≤ j
  moved : slot t i = slot s j
  stay : i = j → t = s
  heap : UpPreF (prioAt s) s.pq.length j → HeapInv t

/-- What `PushItem s x` establishes for its result `t`. -/
structure PushPost (s : Store V) (x : Ptr) (t : Store V) : Prop where
  perm : t.pq.Perm (x :: s.pq)
  value : ∀ p, (t.mem p).Value = (s.mem p).Value
  priority : ∀ p, (t.mem p).Priority = (s.mem p).Priority
  frame : ∀ p, p ∉ s.pq → p ≠ x → t.mem p = s.mem p
  heap : HeapInv s → HeapInv t
  index : IndexInv s → x ∉ s.pq → IndexInv t

/-- What `PopItem s` establishes for the item `p` it returns and its result `t`. -/
structure PopPost (s : Store V) (p : Ptr) (t : Store V) : Prop where
  root : p = slot s 0
  perm : s.pq.Perm (p :: t.pq)
  value : ∀ q, (t.mem q).Value = (s.mem q).Value
  priority : ∀ q, (t.mem q).Priority = (s.mem q).Priority
  frame : ∀ q, q ∉ s.pq → t.mem q = s.mem q
  removed : (t.mem p).index = -1
  heap : HeapInv s → HeapInv t
  greatest : HeapInv s → ∀ q ∈ s.pq, (s.mem q).Priority ≤ (s.mem p).Priority
  index : IndexInv s → IndexInv t

/-- What `UpdateItem s item v p` establishes for its result `t`. -/
structure UpdatePost (s : Store V) (item : Ptr) (v : V) (p : Int) (t : Store V) : Prop where
  perm : t.pq.Perm s.pq
  value : (t.mem item).Value = v
  priority : (t.mem item).Priority = p
  others : ∀ q, q ≠ item →
    (t.mem q).Value = (s.mem q).Value ∧ (t.mem q).Priority = (s.mem q).Priority
  frame : ∀ q, q ∉ s.pq → q ≠ item → t.mem q = s.mem q
  heap : HeapInv s → HeapInv t
  index : IndexInv t

/-- What `NewPriorityQueue mem items` establishes for its result `t`. -/
structure NewPost (mem : Ptr → Item V) (items : List Ptr) (t : Store V) : Prop where
  perm : t.pq.Perm items
  value : ∀ p, (t.mem p).Value = (mem p).Value
  priority : ∀ p, (t.mem p).Priority = (mem p).Priority
  frame : ∀ p, p ∉ items → t.mem p = mem p
  heap : HeapInv t
  index : items.Nodup → IndexInv t

/-! ## Concrete inputs -/

/-- Freshly allocated items `&Item{Value: v, Priority: p}`, the `k`-th at address `k`; the
`index` field has the zero value. -/
def itemsMem (l : List (String × Int)) : Ptr → Item String :=
  fun p => { Value := (l.getD p ("", 0)).1, Priority := (l.getD p ("", 0)).2, index := 0 }

/-- The items `("a", 1)`, `("b", 5)`, `("c", 3)` at addresses `0`, `1`, `2`. -/
def abcMem : Ptr → Item String := itemsMem [("a", 1), ("b", 5), ("c", 3)]

/-- The queue holding `("b", 5)`, `("a", 1)`, `("c", 3)` in slots `0`, `1`, `2`, each item
with its slot in the `index` field. -/
def abcHeap : Store String where
  mem := fun p =>
    match p with
    | 0 => { Value := "a", Priority := 1, index := 1 }
    | 1 => { Value := "b", Priority := 5, index := 0 }
    | 2 => { Value := "c", Priority := 3, index := 2 }
    | _ => { Value := "", Priority := 0, index := 0 }
  pq := [1, 0, 2]

/-- An empty queue. -/
def emptyStore : Store String := { mem := abcMem, pq := [] }

/-- The items `("b", 5)`, `("a", 3)`, `("c", 4)` at addresses `0`, `1`, `2`. -/
def bacMem : Ptr → Item String := itemsMem [("b", 5), ("a", 3), ("c", 4)]

/-! ## Typed pops of `queue.go` -/

/-- The body that `PopInt`, `PopBool`, `PopFloat` and `PopString` share; they differ in the
conversion called (`cast.ToIntE`, `cast.ToBoolE`, `cast.ToFloat64E`, `cast.ToStringE`) and in the
zero value returned for an empty queue. The conversion belongs to the package
`github.com/spf13/cast` and is a parameter `conv`: it returns a value and an error, `none`
standing for the nil error. -/
def Queue.PopTyped {α E : Type} (conv : V → α × Option E) (zero : α) (queue : Queue V) :
    Except Fault ((α × Bool × Option E) × Queue V) :=
  if queue.IsEmpty then .ok ((zero, false, none), queue)
  else
    match queue.data.getLast? with
    | none => .error .nilDereference
    | some value =>
      .ok (((conv value).1, true, (conv value).2), { data := queue.data.dropLast })

/-- Method `PopInt`: `return 0, false, nil` on an empty queue, otherwise the oldest element
is removed and `v, err = cast.ToIntE(elem.Value); return v, true, err`. -/
def Queue.PopInt {E : Type} (ToIntE : V → Int × Option E) (queue : Queue V) :
    Except Fault ((Int × Bool × Option E) × Queue V) :=
  Queue.PopTyped ToIntE 0 queue

/-- Method `PopBool`: as `PopInt`, with `cast.ToBoolE` and the zero value `false`. -/
def Queue.PopBool {E : Type} (ToBoolE : V → Bool × Option E) (queue : Queue V) :
    Except Fault ((Bool × Bool × Option E) × Queue V) :=
  Queue.PopTyped ToBoolE false queue

/-- Method `PopFloat`: as `PopInt`, with `cast.ToFloat64E` and the zero value `0`; the type
`F` stands for `float64` and `zero` for its `0`. -/
def Queue.PopFloat {F E : Type} (zero : F) (ToFloat64E : V → F × Option E) (queue : Queue V) :
    Except Fault ((F × Bool × Option E) × Queue V) :=
  Queue.PopTyped ToFloat64E zero queue

/-- Method `PopString`: as `PopInt`, with `cast.ToStringE` and the zero value `""`. -/
def Queue.PopString {E : Type} (ToStringE : V → String × Option E) (queue : Queue V) :
    Except Fault ((String × Bool × Option E) × Queue V) :=
  Queue.PopTyped ToStringE "" queue

/-! ## The mutex of `queue.go`

The same methods once more, with the field `mut` as part of the state and a record of what
each call does to the mutex and to the list, in order. -/

/-- What a call does: it locks or unlocks `queue.mut`, or reads or writes `queue.data`. -/
inductive Event where
  | lock
  | unlock
  | read
  | write
  deriving DecidableEq, Repr

/-- How a call can go wrong around the mutex: `Lock` on a mutex the caller holds never
returns, `Unlock` of an unlocked mutex is a fatal error. -/
inductive LockFault where
  | deadlock
  | unlockOfUnlockedMutex
  | nilDereference
  deriving DecidableEq, Repr

/-- A Queue with its mutex: the list, whether `mut` is locked, and the events so far. -/
structure LockedQueue (V : Type) where
  data : List V
  locked : Bool
  trace : List Event

/-- Function `NewQueue`, with the fresh, unlocked mutex. -/
def LockedQueue.New : LockedQueue V := { data := [], locked := false, trace := [] }

/-- The call `queue.mut.Lock()`. -/
def LockedQueue.Lock (queue : LockedQueue V) : Except LockFault (LockedQueue V) :=
  if queue.locked then .error .deadlock
  else .ok { queue with locked := true, trace := queue.trace ++ [Event.lock] }

/-- The call `queue.mut.Unlock()`, run by `defer` on every return. -/
def LockedQueue.Unlock (queue : LockedQueue V) : Except LockFault (LockedQueue V) :=
  if queue.locked then
    .ok { queue with locked := false, trace := queue.trace ++ [Event.unlock] }
  else .error .unlockOfUnlockedMutex

/-- Record an access to `queue.data`. -/
def LockedQueue.emit (queue : LockedQueue V) (e : Event) : LockedQueue V :=
  { queue with trace := queue.trace ++ [e] }

/-- Method `Push`: `Lock`, `defer Unlock`, `queue.data.PushFront(v)`. -/
def LockedQueue.Push (queue : LockedQueue V) (v : V) : Except LockFault (LockedQueue V) := do
  let q1 ← queue.Lock
  let q2 := { q1.emit Event.write with data := v :: q1.data }
  q2.Unlock

/-- Method `IsEmpty`: it reads `queue.data.Len()` and touches no mutex. -/
def LockedQueue.IsEmpty (queue : LockedQueue V) : Bool × LockedQueue V :=
  (if queue.data.length > 0 then false else true, queue.emit Event.read)

/-- Method `Size`: `Lock`, `defer Unlock`, `return queue.data.Len()`. -/
def LockedQueue.Size (queue : LockedQueue V) : Except LockFault (Int × LockedQueue V) := do
  let q1 ← queue.Lock
  let q2 := q1.emit Event.read
  let q3 ← q2.Unlock
  pure ((q1.data.length : Int), q3)

/-- The body shared by `Pop` and the typed pops: `Lock`, `defer Unlock`, the `IsEmpty()` test,
and on a non-empty queue `Back()`, `Remove(elem)` and the conversion of `elem.Value`. -/
def LockedQueue.PopWith {β : Type} (onEmpty : β) (onValue : V → β) (queue : LockedQueue V) :
    Except LockFault (β × LockedQueue V) := do
  let q1 ← queue.Lock
  let r := q1.IsEmpty
  if r.1 then do
    let q3 ← r.2.Unlock
    pure (onEmpty, q3)
  else
    match r.2.data.getLast? with
    | none => .error .nilDereference
    | some value => do
      let q2 := r.2.emit Event.read
      let q3 := { q2.emit Event.write with data := q2.data.dropLast }
      let q4 ← q3.Unlock
      pure (onValue value, q4)

/-- Method `Pop`. -/
def LockedQueue.Pop (queue : LockedQueue V) :
    Except LockFault ((Option V × Bool) × LockedQueue V) :=
  LockedQueue.PopWith (none, false) (fun value => (some value, true)) queue

/-- The typed pops `PopInt`, `PopBool`, `PopFloat`, `PopString`, by conversion and zero
value. -/
def LockedQueue.PopTyped {α E : Type} (conv : V → α × Option E) (zero : α)
    (queue : LockedQueue V) : Except LockFault ((α × Bool × Option E) × LockedQueue V) :=
  LockedQueue.PopWith (zero, false, none) (fun value => ((conv value).1, true, (conv value).2))
    queue

/-- The events of a call that holds the mutex from its first step to its last: a `lock`,
then only reads and writes of the list, then an `unlock`. -/
def Guarded (events : List Event) : Prop :=
  ∃ mid, events = Event.lock :: mid ++ [Event.unlock] ∧
    ∀ e ∈ mid, e = Event.read ∨ e = Event.write

/-- What a typed pop `pop`, with conversion `conv` and zero value `zero`, does on every queue:
it succeeds; `canGet` is false exactly when the queue was empty, and then the result is the
zero value with a nil error and the queue is unchanged; on a non-empty queue the oldest
element is removed and the result is the conversion's value and error for it with `canGet`
true; so `canGet` true with a non-nil error is exactly a conversion error on the oldest
element. -/
def TypedPopSpec {α E : Type} (pop : Queue V → Except Fault ((α × Bool × Option E) × Queue V))
    (conv : V → α × Option E) (zero : α) : Prop :=
  ∀ q : Queue V, ∃ r t, pop q = .ok (r, t) ∧
    (r.2.1 = false ↔ q.data = []) ∧
    (q.data = [] → r = (zero, false, none) ∧ t = q) ∧
    (∀ l v, q.data = l ++ [v] → r = ((conv v).1, true, (conv v).2) ∧ t = { data := l }) ∧
    ((r.2.1 = true ∧ r.2.2 ≠ none) ↔ ∃ l v, q.data = l ++ [v] ∧ (conv v).2 ≠ none)

/-! ## More concrete inputs -/

/-- The items `("a", 1)`, `("b", 1)`, `("c", 1)` at addresses `0`, `1`, `2`. -/
def tieMem : Ptr → Item String := itemsMem [("a", 1), ("b", 1), ("c", 1)]

/-- The value and priority of the items at the given addresses. -/
def contents (s : Store V) (ps : List Ptr) : List (V × Int) :=
  ps.map fun p => ((s.mem p).Value, (s.mem p).Priority)

/-- Example values: an integer or a text. -/
inductive Dyn where
  | int (n : Int)
  | text (s : String)
  deriving DecidableEq, Repr

/-- An example conversion to `int`: an integer converts to itself, a text is an error. -/
def intOfDyn : Dyn → Int × Option String
  | .int n => (n, none)
  | .text _ => (0, some "unable to cast to int")

/-! ## Theorems -/

theorem child_cases {c i : Nat} (h0 : 0 < c) (h : (c - 1) / 2 = i) :
    c = 2 * i + 1 ∨ c = 2 * i + 2 := by omega

theorem downPreF_step {f g : Nat → Int} {n lo i j : Nat}
    (hpre : DownPreF f n lo i) (hlo : lo ≤ i) (hjn : j < n)
    (hj : j = 2 * i + 1 ∨ j = 2 * i + 2)
    (hmax : ∀ c, c < n → (c = 2 * i + 1 ∨ c = 2 * i + 2) → f c ≤ f j)
    (hlt : f i < f j)
    (hgi : g i = f j) (hgj : g j = f i) (hgo : ∀ k, k ≠ i → k ≠ j → g k = f k) :
    DownPreF g n lo j ∧ (0 < i → lo ≤ (i - 1) / 2 → g i ≤ g ((i - 1) / 2)) ∧
      (∀ c, 0 < c → c < n → (c - 1) / 2 = i → g c ≤ g i) := by
  obtain ⟨h1, h2⟩ := hpre
  have hpi : ∀ c, 0 < c → c < n → (c - 1) / 2 = i → g c ≤ g i := by
    intro c hc0 hcn hci
    by_cases hcj : c = j
    · subst hcj; rw [hgi, hgj]; exact le_of_lt hlt
    · rw [hgo c (by omega) hcj, hgi]; exact hmax c hcn (child_cases hc0 hci)
  have hip : 0 < i → lo ≤ (i - 1) / 2 → g i ≤ g ((i - 1) / 2) := by
    intro hi0 hlo2
    rw [hgi, hgo ((i - 1) / 2) (by omega) (by omega)]
    exact h2 hi0 hlo2 j (by omega) hjn (by omega)
  refine ⟨⟨?_, ?_⟩, hip, hpi⟩
  · intro c hc0 hcn hclo hcp hcj
    by_cases hci : c = i
    · subst hci; exact hip hc0 hclo
    · by_cases hpci : (c - 1) / 2 = i
      · exact hpci ▸ hpi c hc0 hcn hpci
      · rw [hgo c hci hcj, hgo ((c - 1) / 2) hpci hcp]
        exact h1 c hc0 hcn hclo hpci hci
  · intro _ _ c hc0 hcn hcp
    have hji : (j - 1) / 2 = i := by omega
    rw [hji, hgi, hgo c (by omega) (by omega)]
    have := h1 c hc0 hcn (by omega) (by omega) (by omega)
    rw [hcp] at this; exact this

theorem heapF_of_downPreF {f : Nat → Int} {n lo i : Nat}
    (hpre : DownPreF f n lo i)
    (hedge : 0 < i → lo ≤ (i - 1) / 2 → f i ≤ f ((i - 1) / 2))
    (hch : ChildrenLe f n i) : HeapF f n lo := by
  intro c hc0 hcn hclo
  by_cases hci : c = i
  · subst hci; exact hedge hc0 hclo
  · by_cases hpci : (c - 1) / 2 = i
    · have := hch c hc0 hcn hpci; rw [hpci]; exact this
    · exact hpre.1 c hc0 hcn hclo hpci hci

theorem upPreF_of_downPreF {f : Nat → Int} {n i : Nat}
    (hpre : DownPreF f n 0 i) (hch : ChildrenLe f n i) : UpPreF f n i := by
  refine ⟨?_, fun h0 c hc0 hcn hcp => hpre.2 h0 (Nat.zero_le _) c hc0 hcn hcp⟩
  intro c hc0 hcn hci
  by_cases hpci : (c - 1) / 2 = i
  · have := hch c hc0 hcn hpci; rw [hpci]; exact this
  · exact hpre.1 c hc0 hcn (Nat.zero_le _) hpci hci

theorem upPreF_step {f g : Nat → Int} {n j : Nat}
    (hpre : UpPreF f n j) (hj0 : 0 < j) (hjn : j < n)
    (hlt : f ((j - 1) / 2) < f j)
    (hgi : g ((j - 1) / 2) = f j) (hgj : g j = f ((j - 1) / 2))
    (hgo : ∀ k, k ≠ (j - 1) / 2 → k ≠ j → g k = f k) :
    UpPreF g n ((j - 1) / 2) := by
  obtain ⟨h1, h2⟩ := hpre
  refine ⟨?_, ?_⟩
  · intro c hc0 hcn hci
    by_cases hcj : c = j
    · subst hcj; rw [hgi, hgj]; exact le_of_lt hlt
    · by_cases hpcj : (c - 1) / 2 = j
      · rw [hpcj, hgj, hgo c hci hcj]; exact h2 hj0 c hc0 hcn hpcj
      · by_cases hpci : (c - 1) / 2 = (j - 1) / 2
        · rw [hpci, hgi, hgo c hci hcj]
          have := h1 c hc0 hcn hcj
          rw [hpci] at this; exact le_trans this (le_of_lt hlt)
        · rw [hgo c hci hcj, hgo _ hpci hpcj]; exact h1 c hc0 hcn hcj
  · intro hi0 c hc0 hcn hcp
    have hpp : g (((j - 1) / 2 - 1) / 2) = f (((j - 1) / 2 - 1) / 2) :=
      hgo _ (by omega) (by omega)
    have hedge := h1 ((j - 1) / 2) hi0 (by omega) (by omega)
    rw [hpp]
    by_cases hcj : c = j
    · subst hcj; rw [hgj]; exact hedge
    · rw [hgo c (by omega) hcj]
      have := h1 c hc0 hcn hcj
      rw [hcp] at this; exact le_trans this hedge

theorem heapF_of_upPreF {f : Nat → Int} {n j : Nat}
    (hpre : UpPreF f n j) (hedge : 0 < j → f j ≤ f ((j - 1) / 2)) : HeapF f n 0 := by
  intro c hc0 hcn _
  by_cases hcj : c = j
  · subst hcj; exact hedge hc0
  · exact hpre.1 c hc0 hcn hcj


/-! ### Slice reads -/

theorem idx_natCast {pq : PriorityQueue} {k : Nat} (h : k < pq.length) :
    PriorityQueue.idx pq (k : Int) = .ok (pq.getD k 0) := by
  have h0 : ¬ ((k : Int) < 0) := by omega
  simp [PriorityQueue.idx, h0, List.getD_eq_getElem?_getD, List.getElem?_eq_getElem h]

theorem idx_of_length_le {pq : PriorityQueue} {k : Nat} (h : pq.length ≤ k) :
    PriorityQueue.idx pq (k : Int) = .error .indexOutOfRange := by
  have h0 : ¬ ((k : Int) < 0) := by omega
  simp [PriorityQueue.idx, h0, List.getElem?_eq_none h]

theorem idx_neg {pq : PriorityQueue} {i : Int} (h : i < 0) :
    PriorityQueue.idx pq i = .error .indexOutOfRange := by
  simp [PriorityQueue.idx, h]

theorem Less_natCast (s : Store V) {a b : Nat} (ha : a < s.pq.length) (hb : b < s.pq.length) :
    PriorityQueue.Less s a b = .ok (decide (prioAt s b < prioAt s a)) := by
  simp only [PriorityQueue.Less, idx_natCast ha, idx_natCast hb, prioAt, slot]
  rfl

theorem Swap_natCast (s : Store V) {a b : Nat} (ha : a < s.pq.length) (hb : b < s.pq.length) :
    PriorityQueue.Swap s a b = .ok (swapStore s a b) := by
  have h1 : a < ((s.pq.set a (s.pq.getD b 0)).set b (s.pq.getD a 0)).length := by simpa using ha
  have h2 : b < ((s.pq.set a (s.pq.getD b 0)).set b (s.pq.getD a 0)).length := by simpa using hb
  simp only [PriorityQueue.Swap, idx_natCast ha, idx_natCast hb, Int.toNat_ofNat]
  simp only [bind, Except.bind, idx_natCast h1, idx_natCast h2]
  rfl



/-! ### Swapping two slots -/

theorem cons_perm_getD_cons_set (x d : Ptr) :
    ∀ (t : List Ptr) (k : Nat), k < t.length → (x :: t).Perm (t.getD k d :: t.set k x)
  | [], _, h => by simp at h
  | h :: t, 0, _ => by simpa using List.Perm.swap h x t
  | h :: t, k + 1, hk => by
    have ih := cons_perm_getD_cons_set x d t k (by simpa using hk)
    have h1 : (x :: h :: t).Perm (h :: x :: t) := List.Perm.swap h x t
    have h2 : (h :: x :: t).Perm (h :: t.getD k d :: t.set k x) := ih.cons h
    have h3 : (h :: t.getD k d :: t.set k x).Perm (t.getD k d :: h :: t.set k x) :=
      List.Perm.swap _ _ _
    simpa using (h1.trans h2).trans h3

theorem set_set_perm (d : Ptr) :
    ∀ (l : List Ptr) (a b : Nat), a < l.length → b < l.length →
      ((l.set a (l.getD b d)).set b (l.getD a d)).Perm l
  | [], _, _, h, _ => by simp at h
  | h :: t, 0, 0, _, _ => by simp
  | h :: t, 0, b + 1, _, hb => by
    simpa using (cons_perm_getD_cons_set h d t b (by simpa using hb)).symm
  | h :: t, a + 1, 0, ha, _ => by
    simpa using (cons_perm_getD_cons_set h d t a (by simpa using ha)).symm
  | h :: t, a + 1, b + 1, ha, hb => by
    simpa using set_set_perm d t a b (by simpa using ha) (by simpa using hb)

theorem swapStore_length (s : Store V) (a b : Nat) :
    (swapStore s a b).pq.length = s.pq.length := by
  simp [swapStore]

theorem swapStore_perm (s : Store V) {a b : Nat} (ha : a < s.pq.length)
    (hb : b < s.pq.length) : (swapStore s a b).pq.Perm s.pq :=
  set_set_perm 0 s.pq a b ha hb

theorem slot_swapStore_right (s : Store V) {a b : Nat} (hb : b < s.pq.length) :
    slot (swapStore s a b) b = slot s a := by
  simp [swapStore, slot, List.getElem?_set, hb]

theorem slot_swapStore_left (s : Store V) {a b : Nat} (ha : a < s.pq.length) :
    slot (swapStore s a b) a = slot s b := by
  by_cases hab : b = a
  · subst hab; simp [swapStore, slot, List.getElem?_set, ha]
  · simp [swapStore, slot, List.getElem?_set, ha, hab]

theorem slot_swapStore_other (s : Store V) {a b k : Nat} (hka : k ≠ a) (hkb : k ≠ b) :
    slot (swapStore s a b) k = slot s k := by
  simp [swapStore, slot, List.getElem?_set, Ne.symm hka, Ne.symm hkb]

theorem setIndex_value (mem : Ptr → Item V) (p q : Ptr) (i : Int) :
    (setIndex mem p i q).Value = (mem q).Value := by
  by_cases h : q = p
  · subst h; simp [setIndex]
  · simp [setIndex, h]

theorem setIndex_priority (mem : Ptr → Item V) (p q : Ptr) (i : Int) :
    (setIndex mem p i q).Priority = (mem q).Priority := by
  by_cases h : q = p
  · subst h; simp [setIndex]
  · simp [setIndex, h]

theorem setIndex_index_same (mem : Ptr → Item V) (p : Ptr) (i : Int) :
    (setIndex mem p i p).index = i := by
  simp [setIndex]

theorem setIndex_of_ne (mem : Ptr → Item V) {p q : Ptr} (i : Int) (h : q ≠ p) :
    setIndex mem p i q = mem q := by
  simp [setIndex, h]

theorem slot_mem (s : Store V) {k : Nat} (h : k < s.pq.length) : slot s k ∈ s.pq := by
  simp [slot, List.getElem?_eq_getElem h]

theorem slot_injective {s : Store V} (hinv : IndexInv s) {a b : Nat} (ha : a < s.pq.length)
    (hb : b < s.pq.length) (h : slot s a = slot s b) : a = b := by
  have h1 := hinv a ha
  have h2 := hinv b hb
  rw [h] at h1
  have : (a : Int) = b := h1.symm.trans h2
  exact_mod_cast this

theorem swapStore_mem (s : Store V) {a b : Nat} (ha : a < s.pq.length)
    (hb : b < s.pq.length) :
    (swapStore s a b).mem = setIndex (setIndex s.mem (slot s b) a) (slot s a) b := by
  have h1 := slot_swapStore_left s (b := b) ha
  have h2 := slot_swapStore_right s (a := a) hb
  simp only [slot] at h1 h2
  simp only [swapStore, slot] at *
  rw [h1, h2]

theorem swapStore_rearranged (s : Store V) {a b : Nat} (ha : a < s.pq.length)
    (hb : b < s.pq.length) : Rearranged s (swapStore s a b) where
  perm := swapStore_perm s ha hb
  value p := by rw [swapStore_mem s ha hb, setIndex_value, setIndex_value]
  priority p := by rw [swapStore_mem s ha hb, setIndex_priority, setIndex_priority]
  frame p hp := by
    rw [swapStore_mem s ha hb]
    have h1 : p ≠ slot s a := fun h => hp (h ▸ slot_mem s ha)
    have h2 : p ≠ slot s b := fun h => hp (h ▸ slot_mem s hb)
    rw [setIndex_of_ne _ _ h1, setIndex_of_ne _ _ h2]
  index hinv := by
    intro k hk
    rw [swapStore_length] at hk
    rw [swapStore_mem s ha hb]
    by_cases hkb : k = b
    · subst hkb; rw [slot_swapStore_right s hb, setIndex_index_same]
    · by_cases hka : k = a
      · subst hka
        rw [slot_swapStore_left s ha]
        have hne : slot s b ≠ slot s k := fun h => hkb (slot_injective hinv hk hb h.symm)
        rw [setIndex_of_ne _ _ hne, setIndex_index_same]
      · rw [slot_swapStore_other s hka hkb]
        have h1 : slot s k ≠ slot s a := fun h => hka (slot_injective hinv hk ha h)
        have h2 : slot s k ≠ slot s b := fun h => hkb (slot_injective hinv hk hb h)
        rw [setIndex_of_ne _ _ h1, setIndex_of_ne _ _ h2]
        exact hinv k hk

theorem Rearranged.refl (s : Store V) : Rearranged s s :=
  ⟨List.Perm.refl _, fun _ => rfl, fun _ => rfl, fun _ _ => rfl, id⟩

theorem Rearranged.trans {s t u : Store V} (h1 : Rearranged s t) (h2 : Rearranged t u) :
    Rearranged s u where
  perm := h2.perm.trans h1.perm
  value p := (h2.value p).trans (h1.value p)
  priority p := (h2.priority p).trans (h1.priority p)
  frame p hp := by
    rw [h2.frame p (fun h => hp (h1.perm.mem_iff.mp h)), h1.frame p hp]
  index h := h2.index (h1.index h)

theorem Rearranged.length {s t : Store V} (h : Rearranged s t) :
    t.pq.length = s.pq.length := h.perm.length_eq

theorem prioAt_swapStore_left (s : Store V) {a b : Nat} (ha : a < s.pq.length)
    (hb : b < s.pq.length) : prioAt (swapStore s a b) a = prioAt s b := by
  rw [prioAt, slot_swapStore_left s ha, (swapStore_rearranged s ha hb).priority]; rfl

theorem prioAt_swapStore_right (s : Store V) {a b : Nat} (ha : a < s.pq.length)
    (hb : b < s.pq.length) : prioAt (swapStore s a b) b = prioAt s a := by
  rw [prioAt, slot_swapStore_right s hb, (swapStore_rearranged s ha hb).priority]; rfl

theorem prioAt_swapStore_other (s : Store V) {a b k : Nat} (ha : a < s.pq.length)
    (hb : b < s.pq.length) (hka : k ≠ a) (hkb : k ≠ b) :
    prioAt (swapStore s a b) k = prioAt s k := by
  rw [prioAt, slot_swapStore_other s hka hkb, (swapStore_rearranged s ha hb).priority]; rfl


/-! ### The loop of heap.down -/

theorem downLoop_stop (fuel : Nat) (s : Store V) {i n : Nat} (h : n ≤ 2 * i + 1) :
    heap.downLoop (fuel + 1) s i n = .ok (s, (i : Int)) := by
  have hc : (2 * (i : Int) + 1 ≥ n ∨ 2 * (i : Int) + 1 < 0) := Or.inl (by omega)
  simp [heap.downLoop, hc]

theorem downLoop_succ (fuel : Nat) (s : Store V) {i n : Nat} (h : ¬ n ≤ 2 * i + 1) :
    heap.downLoop (fuel + 1) s i n =
      (do
        let b2 ← if 2 * i + 2 < n then
            PriorityQueue.Less s ((2 * i + 2 : Nat) : Int) ((2 * i + 1 : Nat) : Int)
          else pure false
        let j : Nat := if b2 then 2 * i + 2 else 2 * i + 1
        let b ← PriorityQueue.Less s (j : Int) (i : Int)
        if !b then .ok (s, (i : Int))
        else do
          let s1 ← PriorityQueue.Swap s (i : Int) (j : Int)
          heap.downLoop fuel s1 (j : Int) (n : Int)) := by
  have hc : ¬ (2 * (i : Int) + 1 ≥ n ∨ 2 * (i : Int) + 1 < 0) := by omega
  have e1 : ((2 * i + 2 : Nat) : Int) = 2 * (i : Int) + 1 + 1 := by push_cast; ring
  have e2 : ((2 * i + 1 : Nat) : Int) = 2 * (i : Int) + 1 := by push_cast; ring
  have e3 : (2 * (i : Int) + 1 + 1 < n) ↔ 2 * i + 2 < n := by omega
  have e4 : ∀ y : Bool, (((if y = true then 2 * i + 2 else 2 * i + 1 : Nat)) : Int) =
      if y = true then 2 * (i : Int) + 1 + 1 else 2 * (i : Int) + 1 := by
    intro y; cases y <;> simp [e1, e2]
  rw [heap.downLoop]
  simp only [if_neg hc, e1, e2, e3, e4]

theorem downLoop_step (fuel : Nat) (s : Store V) {i n : Nat} (h : ¬ n ≤ 2 * i + 1)
    (hn : n ≤ s.pq.length) :
    heap.downLoop (fuel + 1) s i n =
      if prioAt s i < prioAt s (biggerChild s i n) then
        heap.downLoop fuel (swapStore s i (biggerChild s i n)) (biggerChild s i n : Nat) n
      else .ok (s, (i : Int)) := by
  have hi : i < s.pq.length := by omega
  have h1 : 2 * i + 1 < s.pq.length := by omega
  rw [downLoop_succ fuel s h]
  by_cases h2 : 2 * i + 2 < n
  · have h2l : 2 * i + 2 < s.pq.length := by omega
    rw [if_pos h2, Less_natCast s h2l h1]
    by_cases hlt : prioAt s (2 * i + 1) < prioAt s (2 * i + 2)
    · have hb : biggerChild s i n = 2 * i + 2 := by simp [biggerChild, h2, hlt]
      simp only [hlt, decide_True, bind, Except.bind, if_true, hb]
      rw [Less_natCast s h2l hi, Swap_natCast s hi h2l]
      by_cases hlt2 : prioAt s i < prioAt s (2 * i + 2) <;> simp [hlt2]
    · have hb : biggerChild s i n = 2 * i + 1 := by simp [biggerChild, hlt]
      simp only [hlt, decide_False, bind, Except.bind, Bool.false_eq_true, if_false, hb]
      rw [Less_natCast s h1 hi, Swap_natCast s hi h1]
      by_cases hlt2 : prioAt s i < prioAt s (2 * i + 1) <;> simp [hlt2]
  · have hb : biggerChild s i n = 2 * i + 1 := by simp [biggerChild, h2]
    rw [if_neg h2]
    simp only [bind, Except.bind, pure, Except.pure, Bool.false_eq_true, if_false, hb]
    rw [Less_natCast s h1 hi, Swap_natCast s hi h1]
    by_cases hlt2 : prioAt s i < prioAt s (2 * i + 1) <;> simp [hlt2]

theorem biggerChild_spec (s : Store V) {i n : Nat} (h : ¬ n ≤ 2 * i + 1) :
    biggerChild s i n < n ∧
      (biggerChild s i n = 2 * i + 1 ∨ biggerChild s i n = 2 * i + 2) ∧
      ∀ c, c < n → (c = 2 * i + 1 ∨ c = 2 * i + 2) →
        prioAt s c ≤ prioAt s (biggerChild s i n) := by
  unfold biggerChild
  split_ifs with hc
  · refine ⟨hc.1, Or.inr rfl, ?_⟩
    rintro c _ (rfl | rfl)
    · exact le_of_lt hc.2
    · exact le_refl _
  · refine ⟨by omega, Or.inl rfl, ?_⟩
    rintro c hcn (rfl | rfl)
    · exact le_refl _
    · have : ¬ prioAt s (2 * i + 1) < prioAt s (2 * i + 2) := fun h2 => hc ⟨hcn, h2⟩
      exact not_lt.mp this

theorem downPost_stop (s : Store V) {i n : Nat} (h : ChildrenLe (prioAt s) n i) :
    DownPost s s i i n where
  rel := Rearranged.refl s
  ge := le_refl _
  lt h := h
  outside _ _ := rfl
  moved := rfl
  stay _ := rfl
  children := h
  heap _ _ _ hlt := absurd hlt (lt_irrefl _)

theorem downLoop_spec : ∀ (fuel : Nat) (s : Store V) (i n : Nat),
    n ≤ s.pq.length → n ≤ fuel + i →
    ∃ t, ∃ j : Nat, heap.downLoop (fuel + 1) s i n = .ok (t, (j : Int)) ∧ DownPost s t i j n := by
  intro fuel
  induction fuel with
  | zero =>
    intro s i n _ hf
    have h : n ≤ 2 * i + 1 := by omega
    exact ⟨s, i, downLoop_stop 0 s h, downPost_stop s (fun c hc0 hcn hci => by omega)⟩
  | succ fuel ih =>
    intro s i n hn hf
    by_cases h : n ≤ 2 * i + 1
    · exact ⟨s, i, downLoop_stop _ s h, downPost_stop s (fun c hc0 hcn hci => by omega)⟩
    · obtain ⟨hjn, hj, hmax⟩ := biggerChild_spec s h
      rw [downLoop_step _ s h hn]
      generalize biggerChild s i n = j at hjn hj hmax
      have hi : i < s.pq.length := by omega
      have hjl : j < s.pq.length := by omega
      by_cases hlt : prioAt s i < prioAt s j
      · rw [if_pos hlt]
        have hlen := swapStore_length s i j
        obtain ⟨t, j', hrun, hpost⟩ := ih (swapStore s i j) j n (by omega) (by omega)
        refine ⟨t, j', hrun, ?_⟩
        have hstep := fun lo (hpre : DownPreF (prioAt s) n lo i) (hlo : lo ≤ i) =>
          downPreF_step (g := prioAt (swapStore s i j)) hpre hlo hjn hj hmax hlt
            (prioAt_swapStore_left s hi hjl) (prioAt_swapStore_right s hi hjl)
            (fun k hki hkj => prioAt_swapStore_other s hi hjl hki hkj)
        refine ⟨(swapStore_rearranged s hi hjl).trans hpost.rel, by have := hpost.ge; omega,
          fun _ => hpost.lt hjn, ?_, ?_, ?_, hpost.children, ?_⟩
        · intro k hk
          rw [hpost.outside k hk, slot_swapStore_other s (by omega) (by omega)]
        · rw [hpost.moved, slot_swapStore_right s hjl]
        · intro hji; have := hpost.ge; omega
        · intro lo hlo hpre _
          obtain ⟨hpre', hedge, hch⟩ := hstep lo hpre hlo
          by_cases hjj : j' = j
          · have hts := hpost.stay hjj
            have hchj := hpost.children
            rw [hts, hjj] at hchj
            rw [hts]
            refine heapF_of_downPreF hpre' ?_ hchj
            intro _ _
            have hji : (j - 1) / 2 = i := by omega
            rw [hji]
            exact hch j (by omega) hjn hji
          · exact hpost.heap lo (by omega) hpre' (by have := hpost.ge; omega)
      · rw [if_neg hlt]
        refine ⟨s, i, rfl, downPost_stop s ?_⟩
        intro c hc0 hcn hci
        exact le_trans (hmax c hcn (child_cases hc0 hci)) (not_lt.mp hlt)

theorem down_spec (s : Store V) (i n : Nat) (hn : n ≤ s.pq.length) :
    ∃ t, ∃ j : Nat, heap.down s i n = .ok (t, decide (i < j)) ∧ DownPost s t i j n := by
  obtain ⟨t, j, hrun, hpost⟩ := downLoop_spec s.pq.length s i n hn (by omega)
  refine ⟨t, j, ?_, hpost⟩
  simp [heap.down, hrun, bind, Except.bind, pure, Except.pure]

/-! ### The loop of heap.up -/

theorem heapInv_iff (s : Store V) : HeapInv s ↔ HeapF (prioAt s) s.pq.length 0 :=
  ⟨fun h c hc0 hcn _ => h c hcn hc0, fun h c hcn hc0 => h c hc0 hcn (Nat.zero_le _)⟩

theorem parent_natCast (j : Nat) : Int.tdiv ((j : Int) - 1) 2 = (((j - 1) / 2 : Nat) : Int) := by
  cases j with
  | zero => rfl
  | succ k =>
    have : ((k + 1 : Nat) : Int) - 1 = (k : Int) := by push_cast; ring
    rw [this, Nat.add_sub_cancel]
    rfl

theorem upLoop_zero (fuel : Nat) (s : Store V) : heap.upLoop (fuel + 1) s 0 = .ok s := by
  have h : Int.tdiv ((0 : Int) - 1) 2 = 0 := by decide
  rw [heap.upLoop]
  simp only [h, if_true]

theorem upLoop_step (fuel : Nat) (s : Store V) {j : Nat} (hj0 : 0 < j)
    (hj : j < s.pq.length) :
    heap.upLoop (fuel + 1) s j =
      if prioAt s ((j - 1) / 2) < prioAt s j then
        heap.upLoop fuel (swapStore s ((j - 1) / 2) j) (((j - 1) / 2 : Nat) : Int)
      else .ok s := by
  have hi : (j - 1) / 2 < s.pq.length := by omega
  have hne : ¬ ((((j - 1) / 2 : Nat) : Int) = (j : Int)) := by omega
  rw [heap.upLoop]
  simp only [parent_natCast, if_neg hne, Less_natCast s hj hi, Swap_natCast s hi hj, bind,
    Except.bind]
  by_cases hlt : prioAt s ((j - 1) / 2) < prioAt s j <;> simp [hlt]

theorem upPost_stop (s : Store V) {j : Nat}
    (h : 0 < j → prioAt s j ≤ prioAt s ((j - 1) / 2)) : UpPost s s j j where
  rel := Rearranged.refl s
  le := le_refl _
  moved := rfl
  stay _ := rfl
  heap hpre := (heapInv_iff s).mpr (heapF_of_upPreF hpre h)

theorem upLoop_spec : ∀ (fuel : Nat) (s : Store V) (j : Nat),
    j < s.pq.length → j ≤ fuel →
    ∃ t, ∃ i : Nat, heap.upLoop (fuel + 1) s j = .ok t ∧ UpPost s t j i := by
  intro fuel
  induction fuel with
  | zero =>
    intro s j _ hf
    have hj : j = 0 := by omega
    subst hj
    exact ⟨s, 0, upLoop_zero 0 s, upPost_stop s (fun h => absurd h (lt_irrefl _))⟩
  | succ fuel ih =>
    intro s j hjl hf
    by_cases hj0 : j = 0
    · subst hj0
      exact ⟨s, 0, upLoop_zero _ s, upPost_stop s (fun h => absurd h (lt_irrefl _))⟩
    · have hj0 : 0 < j := by omega
      have hi : (j - 1) / 2 < s.pq.length := by omega
      rw [upLoop_step _ s hj0 hjl]
      by_cases hlt : prioAt s ((j - 1) / 2) < prioAt s j
      · rw [if_pos hlt]
        have hlen := swapStore_length s ((j - 1) / 2) j
        obtain ⟨t, i, hrun, hpost⟩ :=
          ih (swapStore s ((j - 1) / 2) j) ((j - 1) / 2) (by omega) (by omega)
        refine ⟨t, i, hrun, (swapStore_rearranged s hi hjl).trans hpost.rel,
          by have := hpost.le; omega, ?_, ?_, ?_⟩
        · rw [hpost.moved, slot_swapStore_left s hi]
        · intro hij; have := hpost.le; omega
        · intro hpre
          apply hpost.heap
          rw [hlen]
          exact upPreF_step hpre hj0 hjl hlt (prioAt_swapStore_left s hi hjl)
            (prioAt_swapStore_right s hi hjl)
            (fun k hki hkj => prioAt_swapStore_other s hi hjl hki hkj)
      · rw [if_neg hlt]
        exact ⟨s, j, rfl, upPost_stop s (fun _ => not_lt.mp hlt)⟩

theorem up_spec (s : Store V) (j : Nat) (hj : j < s.pq.length) :
    ∃ t, ∃ i : Nat, heap.up s j = .ok t ∧ UpPost s t j i :=
  upLoop_spec s.pq.length s j hj (by omega)


theorem DownPost.heapF {s t : Store V} {i j n lo : Nat} (h : DownPost s t i j n)
    (hlo : lo ≤ i) (hpre : DownPreF (prioAt s) n lo i)
    (hedge : 0 < i → lo ≤ (i - 1) / 2 → prioAt s i ≤ prioAt s ((i - 1) / 2)) :
    HeapF (prioAt t) n lo := by
  by_cases hji : j = i
  · have hch := h.children
    rw [h.stay hji, hji] at hch
    rw [h.stay hji]
    exact heapF_of_downPreF hpre hedge hch
  · exact h.heap lo hlo hpre (by have := h.ge; omega)

/-! ### PushItem -/

theorem slot_Push_lt (s : Store V) (x : Ptr) {k : Nat} (hk : k < s.pq.length) :
    slot (PriorityQueue.Push s x) k = slot s k := by
  simp [slot, PriorityQueue.Push, List.getElem?_append_left hk]

theorem slot_Push_length (s : Store V) (x : Ptr) :
    slot (PriorityQueue.Push s x) s.pq.length = x := by
  simp [slot, PriorityQueue.Push]

theorem prioAt_Push_lt (s : Store V) (x : Ptr) {k : Nat} (hk : k < s.pq.length) :
    prioAt (PriorityQueue.Push s x) k = prioAt s k := by
  rw [prioAt, slot_Push_lt s x hk]
  exact setIndex_priority _ _ _ _

theorem PushItem_spec (s : Store V) (x : Ptr) : ∃ t, PushItem s x = .ok t ∧ PushPost s x t := by
  have hlen : (PriorityQueue.Push s x).pq.length = s.pq.length + 1 := by
    simp [PriorityQueue.Push]
  have hj : PriorityQueue.Len (PriorityQueue.Push s x) - 1 = ((s.pq.length : Nat) : Int) := by
    simp [PriorityQueue.Len, hlen]
  obtain ⟨t, i, hrun, hpost⟩ := up_spec (PriorityQueue.Push s x) s.pq.length (by omega)
  refine ⟨t, ?_, ?_⟩
  · rw [PushItem, heap.Push]
    simp only [hj]
    exact hrun
  · refine ⟨?_, ?_, ?_, ?_, ?_, ?_⟩
    · refine hpost.rel.perm.trans ?_
      simp [PriorityQueue.Push]
    · intro p; rw [hpost.rel.value]; exact setIndex_value _ _ _ _
    · intro p; rw [hpost.rel.priority]; exact setIndex_priority _ _ _ _
    · intro p hp hpx
      rw [hpost.rel.frame p (by simpa [PriorityQueue.Push] using ⟨hp, hpx⟩)]
      exact setIndex_of_ne _ _ hpx
    · intro hinv
      apply hpost.heap
      rw [hlen]
      refine ⟨?_, ?_⟩
      · intro c hc0 hcn hcj
        have hc : c < s.pq.length := by omega
        rw [prioAt_Push_lt s x hc, prioAt_Push_lt s x (by omega)]
        exact hinv c hc hc0
      · intro _ c hc0 hcn hcp
        omega
    · intro hinv hx
      apply hpost.rel.index
      intro k hk
      rw [hlen] at hk
      by_cases hkl : k = s.pq.length
      · subst hkl
        rw [slot_Push_length]
        exact setIndex_index_same _ _ _
      · have hk' : k < s.pq.length := by omega
        rw [slot_Push_lt s x hk']
        have hne : slot s k ≠ x := fun h => hx (h ▸ slot_mem s hk')
        show (setIndex s.mem x _ (slot s k)).index = _
        rw [setIndex_of_ne _ _ hne]
        exact hinv k hk'

/-! ### PopItem -/

theorem PopItem_empty (s : Store V) (h : s.pq = []) :
    PopItem s = .error .indexOutOfRange := by
  simp [PopItem, heap.Pop, PriorityQueue.Swap, PriorityQueue.idx, h, bind, Except.bind]

theorem prioAt_le_root {s : Store V} (hinv : HeapInv s) :
    ∀ k, k < s.pq.length → prioAt s k ≤ prioAt s 0 := by
  intro k
  induction k using Nat.strong_induction_on with
  | _ k ih =>
    intro hk
    by_cases hk0 : k = 0
    · subst hk0; exact le_refl _
    · exact le_trans (hinv k hk (by omega)) (ih ((k - 1) / 2) (by omega) (by omega))

theorem exists_slot_of_mem {s : Store V} {q : Ptr} (h : q ∈ s.pq) :
    ∃ k, k < s.pq.length ∧ slot s k = q := by
  obtain ⟨k, hk, hq⟩ := List.getElem_of_mem h
  exact ⟨k, hk, by simp [slot, List.getElem?_eq_getElem hk, hq]⟩

theorem Pop_natCast (t : Store V) {m : Nat} (h : t.pq.length = m + 1) :
    PriorityQueue.Pop t =
      .ok (slot t m, { mem := setIndex t.mem (slot t m) (-1), pq := t.pq.take m }) := by
  have e : ((t.pq.length : Nat) : Int) - 1 = (m : Int) := by rw [h]; push_cast; ring
  simp only [PriorityQueue.Pop, e, idx_natCast (show m < t.pq.length by omega), Int.toNat_ofNat]
  rfl

theorem take_append_slot (t : Store V) {m : Nat} (h : t.pq.length = m + 1) :
    t.pq.take m ++ [slot t m] = t.pq := by
  have hm : m < t.pq.length := by omega
  have h1 : slot t m = t.pq[m] := by simp [slot, List.getElem?_eq_getElem hm]
  rw [h1]
  have := List.take_append_drop m t.pq
  rw [List.drop_eq_getElem_cons hm] at this
  have hd : t.pq.drop (m + 1) = [] := by simp [h]
  rw [hd] at this
  exact this

theorem PopItem_spec (s : Store V) (h : s.pq ≠ []) :
    ∃ p t, PopItem s = .ok (p, t) ∧ PopPost s p t := by
  obtain ⟨m, hm⟩ : ∃ m, s.pq.length = m + 1 :=
    ⟨s.pq.length - 1, by have := List.length_pos.mpr h; omega⟩
  have h0 : 0 < s.pq.length := by omega
  have hml : m < s.pq.length := by omega
  have hn : PriorityQueue.Len s - 1 = ((m : Nat) : Int) := by
    simp [PriorityQueue.Len, hm]
  have hswap := Swap_natCast s h0 hml
  have hlen1 := swapStore_length s 0 m
  obtain ⟨t, j, hdown, hpost⟩ := down_spec (swapStore s 0 m) 0 m (by omega)
  have hrel : Rearranged s t := (swapStore_rearranged s h0 hml).trans hpost.rel
  have hlent : t.pq.length = m + 1 := by rw [hrel.length, hm]
  have hroot : slot t m = slot s 0 := by
    rw [hpost.outside m (le_refl _), slot_swapStore_right s hml]
  refine ⟨slot t m, { mem := setIndex t.mem (slot t m) (-1), pq := t.pq.take m }, ?_, ?_⟩
  · rw [PopItem, heap.Pop]
    simp only [hn]
    rw [show ((0 : Int)) = ((0 : Nat) : Int) from rfl, hswap]
    simp only [bind, Except.bind]
    rw [hdown]
    exact Pop_natCast t hlent
  · have hslot : ∀ k, k < m →
        slot { mem := setIndex t.mem (slot t m) (-1), pq := t.pq.take m } k = slot t k := by
      intro k hk
      simp [slot, List.getElem?_take, hk]
    have hprio : ∀ k, k < m →
        prioAt { mem := setIndex t.mem (slot t m) (-1), pq := t.pq.take m } k = prioAt t k := by
      intro k hk
      rw [prioAt, hslot k hk]
      exact setIndex_priority _ _ _ _
    have hlenu : (t.pq.take m).length = m := by simp [hlent]
    refine ⟨hroot, ?_, ?_, ?_, ?_, ?_, ?_, ?_, ?_⟩
    · refine hrel.perm.symm.trans ?_
      have := List.perm_append_singleton (slot t m) (t.pq.take m)
      rwa [take_append_slot t hlent] at this
    · intro q; show (setIndex t.mem _ _ q).Value = _
      rw [setIndex_value, hrel.value]
    · intro q; show (setIndex t.mem _ _ q).Priority = _
      rw [setIndex_priority, hrel.priority]
    · intro q hq
      have hne : q ≠ slot t m := by
        rw [hroot]; exact fun e => hq (e ▸ slot_mem s h0)
      show setIndex t.mem _ _ q = _
      rw [setIndex_of_ne _ _ hne, hrel.frame q hq]
    · exact setIndex_index_same _ _ _
    · intro hinv k hk hk0
      rw [hlenu] at hk
      show prioAt _ k ≤ prioAt _ ((k - 1) / 2)
      rw [hprio k hk, hprio _ (by omega)]
      have hpre : DownPreF (prioAt (swapStore s 0 m)) m 0 0 := by
        refine ⟨?_, fun h => absurd h (lt_irrefl _)⟩
        intro c hc0 hcm _ hcp hc
        rw [prioAt_swapStore_other s h0 hml hc (by omega),
          prioAt_swapStore_other s h0 hml hcp (by omega)]
        exact hinv c (by omega) hc0
      exact hpost.heapF (le_refl _) hpre (fun h => absurd h (lt_irrefl _)) k hk0 hk
        (Nat.zero_le _)
    · intro hinv q hq
      obtain ⟨k, hk, rfl⟩ := exists_slot_of_mem hq
      rw [hroot]
      exact prioAt_le_root hinv k hk
    · intro hinv k hk
      rw [hlenu] at hk
      have hit := hrel.index hinv
      rw [hslot k hk]
      have hne : slot t k ≠ slot t m := fun e => by
        have := slot_injective hit (by omega) (by omega) e
        omega
      show (setIndex t.mem _ _ (slot t k)).index = _
      rw [setIndex_of_ne _ _ hne]
      exact hit k (by omega)


/-! ### UpdateItem -/

theorem Fix_spec (s : Store V) (k : Nat) (hk : k < s.pq.length) :
    ∃ t, ∃ j : Nat, heap.Fix s k = .ok t ∧ Rearranged s t ∧ j < s.pq.length ∧
      slot t j = slot s k ∧ (DownPreF (prioAt s) s.pq.length 0 k → HeapInv t) := by
  obtain ⟨t, j, hdown, hpost⟩ := down_spec s k s.pq.length (le_refl _)
  have hdown' : heap.down s k (PriorityQueue.Len s) = .ok (t, decide (k < j)) := hdown
  by_cases hlt : k < j
  · refine ⟨t, j, ?_, hpost.rel, hpost.lt hk, hpost.moved, ?_⟩
    · simp [heap.Fix, hdown', hlt, bind, Except.bind, pure, Except.pure]
    · intro hpre
      rw [heapInv_iff, hpost.rel.length]
      exact hpost.heap 0 (Nat.zero_le _) hpre hlt
  · have hjk : j = k := by have := hpost.ge; omega
    have hts := hpost.stay hjk
    have hch := hpost.children
    rw [hts, hjk] at hch
    obtain ⟨u, i, hup, hupost⟩ := up_spec s k hk
    refine ⟨u, i, ?_, hupost.rel, by have := hupost.le; omega, hupost.moved, ?_⟩
    · simp [heap.Fix, hdown', hlt, bind, Except.bind, hts, hup]
    · intro hpre
      exact hupost.heap (upPreF_of_downPreF hpre hch)

theorem setValuePriority_index (mem : Ptr → Item V) (p q : Ptr) (v : V) (x : Int) :
    (setValuePriority mem p v x q).index = (mem q).index := by
  by_cases h : q = p
  · subst h; simp [setValuePriority]
  · simp [setValuePriority, h]

theorem setValuePriority_of_ne (mem : Ptr → Item V) {p q : Ptr} (v : V) (x : Int)
    (h : q ≠ p) : setValuePriority mem p v x q = mem q := by
  simp [setValuePriority, h]

theorem setValuePriority_same (mem : Ptr → Item V) (p : Ptr) (v : V) (x : Int) :
    (setValuePriority mem p v x p).Value = v ∧ (setValuePriority mem p v x p).Priority = x := by
  simp [setValuePriority]

theorem UpdateItem_spec (s : Store V) (item : Ptr) (v : V) (p : Int)
    (hidx : IndexInv s) (hmem : item ∈ s.pq) :
    ∃ t, UpdateItem s item v p = .ok t ∧ UpdatePost s item v p t := by
  obtain ⟨k, hk, hslot⟩ := exists_slot_of_mem hmem
  have hindex : (setValuePriority s.mem item v p item).index = (k : Int) := by
    rw [setValuePriority_index, ← hslot]; exact hidx k hk
  obtain ⟨t, j, hfix, hrel, _, _, hheap⟩ :=
    Fix_spec { s with mem := setValuePriority s.mem item v p } k hk
  have hidx0 : IndexInv { s with mem := setValuePriority s.mem item v p } := by
    intro c hc
    show (setValuePriority s.mem item v p (slot s c)).index = _
    rw [setValuePriority_index]; exact hidx c hc
  have hprio : ∀ c, c < s.pq.length → c ≠ k →
      prioAt { s with mem := setValuePriority s.mem item v p } c = prioAt s c := by
    intro c hc hck
    have hne : slot s c ≠ item := fun e => hck (slot_injective hidx hc hk (e.trans hslot.symm))
    show (setValuePriority s.mem item v p (slot s c)).Priority = _
    rw [setValuePriority_of_ne _ _ _ hne]; rfl
  refine ⟨t, ?_, ?_⟩
  · rw [UpdateItem]
    simp only [hindex]
    exact hfix
  · refine ⟨hrel.perm, ?_, ?_, ?_, ?_, ?_, hrel.index hidx0⟩
    · rw [hrel.value]; exact (setValuePriority_same _ _ _ _).1
    · rw [hrel.priority]; exact (setValuePriority_same _ _ _ _).2
    · intro q hq
      rw [hrel.value, hrel.priority]
      show (setValuePriority s.mem item v p q).Value = _ ∧
        (setValuePriority s.mem item v p q).Priority = _
      rw [setValuePriority_of_ne _ _ _ hq]
      exact ⟨rfl, rfl⟩
    · intro q hq hqi
      rw [hrel.frame q hq]
      exact setValuePriority_of_ne _ _ _ hqi
    · intro hinv
      apply hheap
      refine ⟨?_, ?_⟩
      · intro c hc0 hcn _ hcp hck
        have hcn' : c < s.pq.length := hcn
        rw [hprio c hcn' hck, hprio _ (by omega) hcp]
        exact hinv c hcn' hc0
      · intro hk0 _ c hc0 hcn hcp
        have hcn' : c < s.pq.length := hcn
        rw [hprio c hcn' (by omega), hprio _ (by omega) (by omega)]
        have h1 := hinv c hcn' hc0
        rw [hcp] at h1
        exact le_trans h1 (hinv k hk hk0)

/-! ### NewPriorityQueue -/

theorem fillLoop_value : ∀ (l : List Ptr) (mem : Ptr → Item V) (i : Int) (p : Ptr),
    (fillLoop mem l i p).Value = (mem p).Value
  | [], _, _, _ => rfl
  | q :: rest, mem, i, p => by
    rw [fillLoop, fillLoop_value rest, setIndex_value]

theorem fillLoop_priority : ∀ (l : List Ptr) (mem : Ptr → Item V) (i : Int) (p : Ptr),
    (fillLoop mem l i p).Priority = (mem p).Priority
  | [], _, _, _ => rfl
  | q :: rest, mem, i, p => by
    rw [fillLoop, fillLoop_priority rest, setIndex_priority]

theorem fillLoop_frame : ∀ (l : List Ptr) (mem : Ptr → Item V) (i : Int) (p : Ptr),
    p ∉ l → fillLoop mem l i p = mem p
  | [], _, _, _, _ => rfl
  | q :: rest, mem, i, p, hp => by
    have h1 : p ≠ q := fun e => hp (e ▸ List.mem_cons_self _ _)
    have h2 : p ∉ rest := fun e => hp (List.mem_cons_of_mem _ e)
    rw [fillLoop, fillLoop_frame rest _ _ p h2, setIndex_of_ne _ _ h1]

theorem fillLoop_index : ∀ (l : List Ptr) (mem : Ptr → Item V) (i : Int) (k : Nat),
    l.Nodup → k < l.length → (fillLoop mem l i (l.getD k 0)).index = i + k
  | [], _, _, _, _, hk => by simp at hk
  | q :: rest, mem, i, 0, hnd, _ => by
    have hq : q ∉ rest := (List.nodup_cons.mp hnd).1
    rw [fillLoop]
    simp only [List.getD_cons_zero]
    rw [fillLoop_frame rest _ _ q hq, setIndex_index_same]
    simp
  | q :: rest, mem, i, k + 1, hnd, hk => by
    rw [fillLoop]
    simp only [List.getD_cons_succ]
    rw [fillLoop_index rest _ _ k (List.nodup_cons.mp hnd).2 (by simpa using hk)]
    push_cast; ring

theorem initLoop_spec : ∀ (k : Nat) (s : Store V),
    HeapF (prioAt s) s.pq.length k →
    ∃ t, heap.initLoop k s (s.pq.length : Nat) = .ok t ∧ Rearranged s t ∧ HeapInv t := by
  intro k
  induction k with
  | zero =>
    intro s h
    exact ⟨s, rfl, Rearranged.refl s, (heapInv_iff s).mpr h⟩
  | succ k ih =>
    intro s h
    obtain ⟨t, j, hdown, hpost⟩ := down_spec s k s.pq.length (le_refl _)
    have hpre : DownPreF (prioAt s) s.pq.length k k := by
      refine ⟨?_, fun hk0 hle => by omega⟩
      intro c hc0 hcn hclo hcp _
      exact h c hc0 hcn (by omega)
    have hheap : HeapF (prioAt t) t.pq.length k := by
      rw [hpost.rel.length]
      exact hpost.heapF (le_refl _) hpre (fun hk0 hle => by omega)
    obtain ⟨u, hrun, hrel, hinv⟩ := ih t hheap
    refine ⟨u, ?_, hpost.rel.trans hrel, hinv⟩
    rw [heap.initLoop, hdown]
    simp only [bind, Except.bind]
    rw [← hpost.rel.length]
    exact hrun

theorem NewPriorityQueue_spec (mem : Ptr → Item V) (items : List Ptr) :
    ∃ t, NewPriorityQueue mem items = .ok t ∧ NewPost mem items t := by
  have hheap : HeapF (prioAt { mem := fillLoop mem items 0, pq := items }) items.length
      (items.length / 2) := by
    intro c hc0 hcn hclo
    omega
  obtain ⟨t, hrun, hrel, hinv⟩ := initLoop_spec (items.length / 2) _ hheap
  refine ⟨t, ?_, ?_⟩
  · rw [NewPriorityQueue, heap.Init]
    have e : (Int.tdiv (PriorityQueue.Len { mem := fillLoop mem items 0, pq := items }) 2).toNat
        = items.length / 2 := rfl
    simp only [e]
    exact hrun
  · refine ⟨hrel.perm, ?_, ?_, ?_, hinv, ?_⟩
    · intro p; rw [hrel.value]; exact fillLoop_value _ _ _ _
    · intro p; rw [hrel.priority]; exact fillLoop_priority _ _ _ _
    · intro p hp; rw [hrel.frame p hp]; exact fillLoop_frame _ _ _ _ hp
    · intro hnd
      apply hrel.index
      intro k hk
      have := fillLoop_index items mem 0 k hnd hk
      simpa [slot] using this


/-! ### Sequences of priority-queue operations -/

theorem runOps_append (s : Store V) (a b : List (Op V)) :
    runOps s (a ++ b) =
      (do
        let r ← runOps s a
        let r2 ← runOps r.2 b
        pure (r.1 ++ r2.1, r2.2)) := by
  induction a generalizing s with
  | nil =>
    simp only [List.nil_append, runOps, bind, Except.bind, pure, Except.pure]
    cases runOps s b <;> rfl
  | cons op rest ih =>
    rw [List.cons_append, runOps, runOps]
    cases applyOp s op with
    | error e => rfl
    | ok r =>
      have ih2 := ih r.2
      simp only [bind, Except.bind, pure, Except.pure] at ih2 ⊢
      rw [ih2]
      cases runOps r.2 rest with
      | error e => rfl
      | ok r2 =>
        simp only []
        cases runOps r2.2 b with
        | error e => rfl
        | ok r3 => simp

theorem applyOp_push (s : Store V) (x : Ptr) {t : Store V} (h : PushItem s x = .ok t) :
    applyOp s (.push x) = .ok (none, t) := by
  simp [applyOp, h, bind, Except.bind, pure, Except.pure]

theorem applyOp_pop (s : Store V) {p : Ptr} {t : Store V} (h : PopItem s = .ok (p, t)) :
    applyOp s .pop = .ok (some p, t) := by
  simp [applyOp, h, bind, Except.bind, pure, Except.pure]

theorem applyOp_update (s : Store V) (x : Ptr) (v : V) (p : Int) {t : Store V}
    (h : UpdateItem s x v p = .ok t) : applyOp s (.update x v p) = .ok (none, t) := by
  simp [applyOp, h, bind, Except.bind, pure, Except.pure]

theorem runOps_cons_ok (s : Store V) (op : Op V) (rest : List (Op V)) {o : Option Ptr}
    {t u : Store V} {out : List Ptr} (h1 : applyOp s op = .ok (o, t))
    (h2 : runOps t rest = .ok (out, u)) :
    runOps s (op :: rest) = .ok (o.toList ++ out, u) := by
  simp [runOps, h1, h2, bind, Except.bind, pure, Except.pure]

theorem runOps_pushes : ∀ (items : List Ptr) (s : Store V), HeapInv s →
    ∃ t, runOps s (items.map Op.push) = .ok ([], t) ∧ t.pq.Perm (items ++ s.pq) ∧
      HeapInv t ∧ ∀ p, (t.mem p).Value = (s.mem p).Value ∧
        (t.mem p).Priority = (s.mem p).Priority
  | [], s, h => ⟨s, rfl, by simp, h, fun _ => ⟨rfl, rfl⟩⟩
  | x :: rest, s, h => by
    obtain ⟨t, hrun, hpost⟩ := PushItem_spec s x
    obtain ⟨u, hrun2, hperm, hheap, hsame⟩ := runOps_pushes rest t (hpost.heap h)
    refine ⟨u, ?_, ?_, hheap, ?_⟩
    · have := runOps_cons_ok s (.push x) (rest.map Op.push) (applyOp_push s x hrun) hrun2
      simpa using this
    · refine hperm.trans ?_
      have h1 : (rest ++ t.pq).Perm (rest ++ x :: s.pq) := List.Perm.append_left rest hpost.perm
      exact h1.trans List.perm_middle
    · intro p
      exact ⟨(hsame p).1.trans (hpost.value p), (hsame p).2.trans (hpost.priority p)⟩

theorem runOps_pops : ∀ (n : Nat) (s : Store V), s.pq.length = n → HeapInv s →
    ∃ out t, runOps s (List.replicate n Op.pop) = .ok (out, t) ∧ out.Perm s.pq ∧
      (out.map fun p => (s.mem p).Priority).Pairwise (fun a b => a ≥ b) ∧ t.pq = [] ∧
      ∀ p, (t.mem p).Value = (s.mem p).Value ∧ (t.mem p).Priority = (s.mem p).Priority
  | 0, s, hlen, _ =>
    ⟨[], s, rfl, by rw [List.length_eq_zero.mp hlen], by simp, List.length_eq_zero.mp hlen,
      fun _ => ⟨rfl, rfl⟩⟩
  | n + 1, s, hlen, h => by
    have hne : s.pq ≠ [] := by intro e; rw [e] at hlen; simp at hlen
    obtain ⟨p, t, hrun, hpost⟩ := PopItem_spec s hne
    have hlen2 : t.pq.length = n := by
      have := hpost.perm.length_eq
      simp only [List.length_cons] at this
      omega
    obtain ⟨out, u, hrun2, hperm, hsorted, hempty, hsame⟩ :=
      runOps_pops n t hlen2 (hpost.heap h)
    refine ⟨p :: out, u, ?_, ?_, ?_, hempty, ?_⟩
    · have := runOps_cons_ok s .pop (List.replicate n Op.pop) (applyOp_pop s hrun) hrun2
      simpa [List.replicate_succ] using this
    · exact (hperm.cons p).trans hpost.perm.symm
    · simp only [List.map_cons, List.pairwise_cons]
      refine ⟨?_, ?_⟩
      · intro a ha
        obtain ⟨q, hq, rfl⟩ := List.mem_map.mp ha
        have hq2 : q ∈ s.pq :=
          hpost.perm.symm.subset (List.mem_cons_of_mem _ (hperm.subset hq))
        exact hpost.greatest h q hq2
      · have e : (out.map fun p => (s.mem p).Priority) =
            (out.map fun p => (t.mem p).Priority) :=
          List.map_congr_left (fun q _ => (hpost.priority q).symm)
        rw [e]
        exact hsorted
    · intro q
      exact ⟨(hsame q).1.trans (hpost.value q), (hsame q).2.trans (hpost.priority q)⟩

theorem runOps_admissible : ∀ (ops : List (Op V)) (s : Store V), IndexInv s → HeapInv s →
    admissible s ops = true →
    ∃ out t, runOps s ops = .ok (out, t) ∧ IndexInv t ∧ HeapInv t
  | [], s, hi, hh, _ => ⟨[], s, rfl, hi, hh⟩
  | .push x :: rest, s, hi, hh, ha => by
    obtain ⟨t, hrun, hpost⟩ := PushItem_spec s x
    have hstep := applyOp_push s x hrun
    simp only [admissible, hstep, Bool.and_eq_true, opOk, decide_eq_true_eq] at ha
    obtain ⟨out, u, hrun2, hi2, hh2⟩ :=
      runOps_admissible rest t (hpost.index hi ha.1) (hpost.heap hh) ha.2
    exact ⟨_, u, runOps_cons_ok s _ rest hstep hrun2, hi2, hh2⟩
  | .pop :: rest, s, hi, hh, ha => by
    have hne : s.pq ≠ [] := by
      simp only [admissible, Bool.and_eq_true, opOk, decide_eq_true_eq] at ha
      exact ha.1
    obtain ⟨p, t, hrun, hpost⟩ := PopItem_spec s hne
    have hstep := applyOp_pop s hrun
    simp only [admissible, hstep, Bool.and_eq_true] at ha
    obtain ⟨out, u, hrun2, hi2, hh2⟩ :=
      runOps_admissible rest t (hpost.index hi) (hpost.heap hh) ha.2
    exact ⟨_, u, runOps_cons_ok s _ rest hstep hrun2, hi2, hh2⟩
  | .update x v p :: rest, s, hi, hh, ha => by
    have hmem : x ∈ s.pq := by
      simp only [admissible, Bool.and_eq_true, opOk, decide_eq_true_eq] at ha
      exact ha.1
    obtain ⟨t, hrun, hpost⟩ := UpdateItem_spec s x v p hi hmem
    have hstep := applyOp_update s x v p hrun
    simp only [admissible, hstep, Bool.and_eq_true] at ha
    obtain ⟨out, u, hrun2, hi2, hh2⟩ :=
      runOps_admissible rest t hpost.index (hpost.heap hh) ha.2
    exact ⟨_, u, runOps_cons_ok s _ rest hstep hrun2, hi2, hh2⟩


/-! ### The FIFO queue -/

theorem Queue.IsEmpty_iff (q : Queue V) : q.IsEmpty = true ↔ q.data = [] := by
  cases h : q.data with
  | nil => simp [Queue.IsEmpty, h]
  | cons a l => simp [Queue.IsEmpty, h]

theorem Queue.Pop_nil (q : Queue V) (h : q.data = []) : q.Pop = .ok ((none, false), q) := by
  simp [Queue.Pop, (Queue.IsEmpty_iff q).mpr h]

theorem Queue.Pop_append (q : Queue V) (l : List V) (v : V) (h : q.data = l ++ [v]) :
    q.Pop = .ok ((some v, true), { data := l }) := by
  have hne : ¬ q.IsEmpty = true := by
    rw [Queue.IsEmpty_iff, h]; simp
  simp [Queue.Pop, hne, h]

theorem Queue.Pop_refines (q : Queue V) :
    ∃ q2, q.Pop = .ok ((specPop q.data.reverse).1, q2) ∧
      q2.data.reverse = (specPop q.data.reverse).2 := by
  rcases List.eq_nil_or_concat q.data with h | ⟨l, v, h⟩
  · exact ⟨q, by rw [Queue.Pop_nil q h, h]; rfl, by rw [h]; rfl⟩
  · refine ⟨{ data := l }, ?_, ?_⟩
    · rw [Queue.Pop_append q l v (by simpa using h), h]
      simp [specPop]
    · rw [h]; simp [specPop]

theorem Queue.run_refines : ∀ (ops : List (QOp V)) (q : Queue V),
    ∃ q2, Queue.run q ops = .ok ((specRun q.data.reverse ops).1, q2) ∧
      q2.data.reverse = (specRun q.data.reverse ops).2
  | [], q => ⟨q, rfl, rfl⟩
  | .push v :: rest, q => by
    obtain ⟨q2, h1, h2⟩ := Queue.run_refines rest (q.Push v)
    have e : (q.Push v).data.reverse = specPush q.data.reverse v := by
      simp [Queue.Push, specPush]
    rw [e] at h1 h2
    exact ⟨q2, by rw [Queue.run, h1]; rfl, by rw [h2]; rfl⟩
  | .pop :: rest, q => by
    obtain ⟨q1, hp, hq1⟩ := Queue.Pop_refines q
    obtain ⟨q2, h1, h2⟩ := Queue.run_refines rest q1
    rw [hq1] at h1 h2
    refine ⟨q2, ?_, by rw [h2]; rfl⟩
    rw [Queue.run, hp]
    simp only [bind, Except.bind, h1]
    rfl

theorem specRun_pushes (l : List V) (vs : List V) (rest : List (QOp V)) :
    specRun l (vs.map QOp.push ++ rest) = specRun (l ++ vs) rest := by
  induction vs generalizing l with
  | nil => simp
  | cons v vs ih =>
    rw [List.map_cons, List.cons_append, specRun, ih, specPush]
    simp

theorem specRun_pops (vs : List V) :
    specRun vs (List.replicate vs.length QOp.pop) = (vs.map fun v => (some v, true), []) := by
  induction vs with
  | nil => rfl
  | cons v vs ih =>
    simp only [List.length_cons, List.replicate_succ, specRun, specPop, ih, List.map_cons]

theorem specRun_length (ops : List (QOp V)) (l : List V) :
    (specRun l ops).2.length + countOk (specRun l ops).1 = l.length + countPush ops := by
  induction ops generalizing l with
  | nil => simp [specRun, countOk, countPush]
  | cons op rest ih =>
    cases op with
    | push v =>
      simp only [specRun, countPush]
      rw [ih]; simp [specPush]; omega
    | pop =>
      cases l with
      | nil =>
        have := ih ([] : List V)
        simp only [specRun, specPop, countPush, countOk, List.filter_cons] at this ⊢
        simpa using this
      | cons v l =>
        have := ih l
        simp only [specRun, specPop, countPush, countOk, List.filter_cons] at this ⊢
        simp only [if_true, List.length_cons] at this ⊢
        omega


/-! ### The direction of heap.Fix -/

theorem down_stay (s : Store V) {i n : Nat} (hn : n ≤ s.pq.length)
    (hch : ChildrenLe (prioAt s) n i) : heap.down s i n = .ok (s, false) := by
  have hloop : heap.downLoop (s.pq.length + 1) s i n = .ok (s, (i : Int)) := by
    by_cases h : n ≤ 2 * i + 1
    · exact downLoop_stop _ s h
    · obtain ⟨hjn, hj, _⟩ := biggerChild_spec s h
      rw [downLoop_step _ s h hn]
      have hle : prioAt s (biggerChild s i n) ≤ prioAt s i :=
        hch _ (by omega) hjn (by omega)
      rw [if_neg (not_lt.mpr hle)]
  simp [heap.down, hloop, bind, Except.bind, pure, Except.pure]

theorem up_stay (s : Store V) {j : Nat} (hj : j < s.pq.length)
    (hedge : 0 < j → prioAt s j ≤ prioAt s ((j - 1) / 2)) : heap.up s j = .ok s := by
  rw [heap.up]
  by_cases hj0 : j = 0
  · subst hj0; exact upLoop_zero _ s
  · have hpos : 0 < j := by omega
    rw [upLoop_step _ s hpos hj, if_neg (not_lt.mpr (hedge hpos))]

theorem Fix_stay (s : Store V) {k : Nat} (hk : k < s.pq.length)
    (hch : ChildrenLe (prioAt s) s.pq.length k)
    (hedge : 0 < k → prioAt s k ≤ prioAt s ((k - 1) / 2)) : heap.Fix s k = .ok s := by
  have hdown : heap.down s k (PriorityQueue.Len s) = .ok (s, false) :=
    down_stay s (le_refl _) hch
  simp [heap.Fix, hdown, bind, Except.bind, up_stay s hk hedge]

theorem Fix_up (s : Store V) {k : Nat} (hk : k < s.pq.length)
    (hch : ChildrenLe (prioAt s) s.pq.length k) :
    ∃ t, ∃ j : Nat, heap.Fix s k = .ok t ∧ UpPost s t k j := by
  have hdown : heap.down s k (PriorityQueue.Len s) = .ok (s, false) :=
    down_stay s (le_refl _) hch
  obtain ⟨t, j, hup, hpost⟩ := up_spec s k hk
  exact ⟨t, j, by simp [heap.Fix, hdown, bind, Except.bind, hup], hpost⟩

theorem Fix_down (s : Store V) {k : Nat} (hk : k < s.pq.length)
    (hedge : 0 < k → prioAt s k ≤ prioAt s ((k - 1) / 2)) :
    ∃ t, ∃ j : Nat, heap.Fix s k = .ok t ∧ DownPost s t k j s.pq.length := by
  obtain ⟨t, j, hdown, hpost⟩ := down_spec s k s.pq.length (le_refl _)
  have hdown2 : heap.down s k (PriorityQueue.Len s) = .ok (t, decide (k < j)) := hdown
  refine ⟨t, j, ?_, hpost⟩
  by_cases hlt : k < j
  · simp [heap.Fix, hdown2, hlt, bind, Except.bind, pure, Except.pure]
  · have hjk : j = k := by have := hpost.ge; omega
    have hts := hpost.stay hjk
    simp [heap.Fix, hdown2, hlt, bind, Except.bind, hts, up_stay s hk hedge]

/-! ### UpdateItem of a removed item -/

theorem Fix_removed (s : Store V) : heap.Fix s (-1) = .ok s := by
  have h1 : heap.downLoop (s.pq.length + 1) s (-1) (PriorityQueue.Len s) = .ok (s, -1) := by
    rw [heap.downLoop]
    simp
  have h2 : heap.up s (-1) = .ok s := by
    have e : Int.tdiv ((-1 : Int) - 1) 2 = -1 := by decide
    rw [heap.up, heap.upLoop]
    simp only [e, if_true]
  simp [heap.Fix, heap.down, h1, h2, bind, Except.bind, pure, Except.pure]

theorem UpdateItem_removed (s : Store V) (item : Ptr) (v : V) (p : Int)
    (h : (s.mem item).index = -1) :
    UpdateItem s item v p = .ok { s with mem := setValuePriority s.mem item v p } := by
  have hindex : (setValuePriority s.mem item v p item).index = -1 := by
    rw [setValuePriority_index]; exact h
  rw [UpdateItem]
  simp only [hindex]
  exact Fix_removed _


/-! ### Typed pops -/

theorem Queue.PopTyped_nil {α E : Type} (conv : V → α × Option E) (zero : α) (q : Queue V)
    (h : q.data = []) : Queue.PopTyped conv zero q = .ok ((zero, false, none), q) := by
  simp [Queue.PopTyped, (Queue.IsEmpty_iff q).mpr h]

theorem Queue.PopTyped_append {α E : Type} (conv : V → α × Option E) (zero : α) (q : Queue V)
    (l : List V) (v : V) (h : q.data = l ++ [v]) :
    Queue.PopTyped conv zero q = .ok (((conv v).1, true, (conv v).2), { data := l }) := by
  have hne : ¬ q.IsEmpty = true := by
    rw [Queue.IsEmpty_iff, h]; simp
  simp [Queue.PopTyped, hne, h]

theorem Queue.PopTyped_cases {α E : Type} (conv : V → α × Option E) (zero : α) (q : Queue V) :
    (q.data = [] ∧ Queue.PopTyped conv zero q = .ok ((zero, false, none), q)) ∨
    ∃ l v, q.data = l ++ [v] ∧
      Queue.PopTyped conv zero q = .ok (((conv v).1, true, (conv v).2), { data := l }) := by
  rcases List.eq_nil_or_concat q.data with h | ⟨l, v, h⟩
  · exact Or.inl ⟨h, Queue.PopTyped_nil conv zero q h⟩
  · have h2 : q.data = l ++ [v] := by simpa using h
    exact Or.inr ⟨l, v, h2, Queue.PopTyped_append conv zero q l v h2⟩

/-! ### The mutex -/

theorem LockedQueue.Push_guarded (q : LockedQueue V) (v : V) (h : q.locked = false) :
    ∃ t, q.Push v = .ok t ∧ t.locked = false ∧ t.data = v :: q.data ∧
      ∃ events, t.trace = q.trace ++ events ∧ Guarded events := by
  refine ⟨LockedQueue.mk (v :: q.data) false
      (q.trace ++ [Event.lock] ++ [Event.write] ++ [Event.unlock]), ?_, ?_, ?_,
    [Event.lock, Event.write, Event.unlock], ?_, [Event.write], rfl, ?_⟩
  · simp only [LockedQueue.Push, LockedQueue.Lock, h, LockedQueue.Unlock, LockedQueue.emit,
      bind, Except.bind]
    rfl
  · rfl
  · rfl
  · simp
  · intro e he; simp at he; exact Or.inr he

theorem LockedQueue.Size_guarded (q : LockedQueue V) (h : q.locked = false) :
    ∃ t, q.Size = .ok ((q.data.length : Int), t) ∧ t.locked = false ∧ t.data = q.data ∧
      ∃ events, t.trace = q.trace ++ events ∧ Guarded events := by
  refine ⟨LockedQueue.mk q.data false
      (q.trace ++ [Event.lock] ++ [Event.read] ++ [Event.unlock]), ?_, ?_, ?_,
    [Event.lock, Event.read, Event.unlock], ?_, [Event.read], rfl, ?_⟩
  · simp only [LockedQueue.Size, LockedQueue.Lock, h, LockedQueue.Unlock, LockedQueue.emit,
      bind, Except.bind, pure, Except.pure]
    rfl
  · rfl
  · rfl
  · simp
  · intro e he; simp at he; exact Or.inl he

theorem LockedQueue.PopWith_guarded {β : Type} (onEmpty : β) (onValue : V → β)
    (q : LockedQueue V) (h : q.locked = false) :
    ∃ r t, LockedQueue.PopWith onEmpty onValue q = .ok (r, t) ∧ t.locked = false ∧
      ((q.data = [] ∧ r = onEmpty ∧ t.data = q.data) ∨
        ∃ l v, q.data = l ++ [v] ∧ r = onValue v ∧ t.data = l) ∧
      ∃ events, t.trace = q.trace ++ events ∧ Guarded events := by
  rcases List.eq_nil_or_concat q.data with hd | ⟨l, v, hd⟩
  · refine ⟨onEmpty, LockedQueue.mk q.data false
        (q.trace ++ [Event.lock] ++ [Event.read] ++ [Event.unlock]), ?_, rfl,
      Or.inl ⟨hd, rfl, rfl⟩, [Event.lock, Event.read, Event.unlock], by simp, [Event.read],
      rfl, ?_⟩
    · simp [LockedQueue.PopWith, LockedQueue.Lock, h, LockedQueue.IsEmpty, hd,
        LockedQueue.Unlock, LockedQueue.emit, bind, Except.bind, pure, Except.pure]
    · intro e he; simp at he; exact Or.inl he
  · have hd2 : q.data = l ++ [v] := by simpa using hd
    refine ⟨onValue v, LockedQueue.mk l false
        (q.trace ++ [Event.lock] ++ [Event.read] ++ [Event.read] ++ [Event.write] ++
          [Event.unlock]), ?_, rfl,
      Or.inr ⟨l, v, hd2, rfl, rfl⟩,
      [Event.lock, Event.read, Event.read, Event.write, Event.unlock], by simp,
      [Event.read, Event.read, Event.write], rfl, ?_⟩
    · simp [LockedQueue.PopWith, LockedQueue.Lock, h, LockedQueue.IsEmpty, hd2,
        LockedQueue.Unlock, LockedQueue.emit, bind, Except.bind, pure, Except.pure]
    · intro e he
      simp at he
      rcases he with he | he
      · exact Or.inl he
      · exact Or.inr he

theorem LockedQueue.IsEmpty_unguarded (q : LockedQueue V) :
    (q.IsEmpty).2.trace = q.trace ++ [Event.read] ∧ (q.IsEmpty).2.locked = q.locked ∧
      (q.IsEmpty).2.data = q.data ∧ ((q.IsEmpty).1 = true ↔ q.data = []) := by
  refine ⟨rfl, rfl, rfl, ?_⟩
  cases h : q.data with
  | nil => simp [LockedQueue.IsEmpty, h]
  | cons a l => simp [LockedQueue.IsEmpty, h]

theorem LockedQueue.Lock_held (q : LockedQueue V) (h : q.locked = true) :
    q.Lock = .error .deadlock := by
  simp [LockedQueue.Lock, h]


/-! ## The claims -/

/-- C1: for every non-empty queue that satisfies the max-heap invariant, `PopItem` returns an
item whose priority is at least the priority of every item that was in the queue; the queue
afterwards holds exactly the previous items minus the returned one, its `Len` is one less, and
no item's value or priority changed. -/
theorem C1_PopItem_returns_greatest (s : Store V) (hne : s.pq ≠ []) (hheap : HeapInv s) :
    ∃ p t, PopItem s = .ok (p, t) ∧
      (∀ q ∈ s.pq, (s.mem q).Priority ≤ (s.mem p).Priority) ∧
      s.pq.Perm (p :: t.pq) ∧
      PriorityQueue.Len t = PriorityQueue.Len s - 1 ∧
      ∀ q, (t.mem q).Value = (s.mem q).Value ∧ (t.mem q).Priority = (s.mem q).Priority := by
  obtain ⟨p, t, hrun, hpost⟩ := PopItem_spec s hne
  refine ⟨p, t, hrun, hpost.greatest hheap, hpost.perm, ?_, fun q =>
    ⟨hpost.value q, hpost.priority q⟩⟩
  have := hpost.perm.length_eq
  simp only [List.length_cons] at this
  simp only [PriorityQueue.Len, this]
  push_cast; ring

/-- C1 at the queue `abcHeap`, which is not empty and satisfies the max-heap invariant. -/
theorem C1_PopItem_returns_greatest_witness :
    abcHeap.pq ≠ [] ∧ HeapInv abcHeap ∧
      ∃ p t, PopItem abcHeap = .ok (p, t) ∧
        (∀ q ∈ abcHeap.pq, (abcHeap.mem q).Priority ≤ (abcHeap.mem p).Priority) ∧
        abcHeap.pq.Perm (p :: t.pq) ∧
        PriorityQueue.Len t = PriorityQueue.Len abcHeap - 1 ∧
        ∀ q, (t.mem q).Value = (abcHeap.mem q).Value ∧
          (t.mem q).Priority = (abcHeap.mem q).Priority :=
  ⟨by decide, by decide, C1_PopItem_returns_greatest abcHeap (by decide) (by decide)⟩

/-- C2, as stated, fails: `NewPriorityQueue` of the items `b`, `a`, `c`, `a` (the item `a`
given twice) builds a queue that satisfies the max-heap invariant and contains `a`, and
`UpdateItem` of `a` to priority 10 succeeds and leaves a queue that violates the invariant. -/
theorem C2_counterexample_duplicate_item :
    ∃ s t, NewPriorityQueue bacMem [0, 1, 2, 1] = .ok s ∧ HeapInv s ∧ 1 ∈ s.pq ∧
      UpdateItem s 1 "a" 10 = .ok t ∧ ¬ HeapInv t :=
  ⟨_, _, rfl, by decide, by decide, rfl, by decide⟩

/-- C2, amended: a queue that satisfies the max-heap invariant still satisfies it after
`PushItem` of any item and after `PopItem` when it is not empty; when it also satisfies the
index invariant, it still satisfies the max-heap invariant after `UpdateItem` of any contained
item with any new value and priority, and after any sequence of calls in which every push is
of an item not in the queue, every pop is on a non-empty queue and every update is of a
contained item. `NewPriorityQueue` establishes the max-heap invariant, and the index invariant
when the items are pairwise distinct. -/
theorem C2_heap_invariant_preserved (s : Store V) (hheap : HeapInv s) :
    (∀ x, ∃ t, PushItem s x = .ok t ∧ HeapInv t) ∧
    (s.pq ≠ [] → ∃ p t, PopItem s = .ok (p, t) ∧ HeapInv t) ∧
    (IndexInv s → ∀ item v p, item ∈ s.pq →
      ∃ t, UpdateItem s item v p = .ok t ∧ HeapInv t) ∧
    (IndexInv s → ∀ ops, admissible s ops = true →
      ∃ out t, runOps s ops = .ok (out, t) ∧ HeapInv t) ∧
    (∀ (mem : Ptr → Item V) (items : List Ptr),
      ∃ s0, NewPriorityQueue mem items = .ok s0 ∧ HeapInv s0 ∧
        (items.Nodup → IndexInv s0)) := by
  refine ⟨?_, ?_, ?_, ?_, ?_⟩
  · intro x
    obtain ⟨t, hrun, hpost⟩ := PushItem_spec s x
    exact ⟨t, hrun, hpost.heap hheap⟩
  · intro hne
    obtain ⟨p, t, hrun, hpost⟩ := PopItem_spec s hne
    exact ⟨p, t, hrun, hpost.heap hheap⟩
  · intro hidx item v p hmem
    obtain ⟨t, hrun, hpost⟩ := UpdateItem_spec s item v p hidx hmem
    exact ⟨t, hrun, hpost.heap hheap⟩
  · intro hidx ops hadm
    obtain ⟨out, t, hrun, _, hh⟩ := runOps_admissible ops s hidx hheap hadm
    exact ⟨out, t, hrun, hh⟩
  · intro mem items
    obtain ⟨s0, hrun, hpost⟩ := NewPriorityQueue_spec mem items
    exact ⟨s0, hrun, hpost.heap, hpost.index⟩

/-- C2, amended, at the queue `abcHeap`: it satisfies both invariants, and the sequence pop,
push of the popped item, update of `a`, pop is admissible and leaves a max-heap. -/
theorem C2_heap_invariant_preserved_witness :
    HeapInv abcHeap ∧ IndexInv abcHeap ∧
      admissible abcHeap [.pop, .push 1, .update 0 "z" 7, .pop] = true ∧
      ∃ out t, runOps abcHeap [.pop, .push 1, .update 0 "z" 7, .pop] = .ok (out, t) ∧
        HeapInv t :=
  ⟨by decide, by decide, by decide,
    (C2_heap_invariant_preserved abcHeap (by decide)).2.2.2.1 (by decide) _ (by decide)⟩

/-- C3: for every list of items, pushing them one after another onto an empty queue with
`PushItem`, or passing them to `NewPriorityQueue`, and then calling `PopItem` as many times as
there are items succeeds; the items come back with priorities in non-increasing order, they
are a permutation of the inserted items with their values and priorities unchanged, and the
queue is empty afterwards. -/
theorem C3_pops_return_sorted_permutation (mem : Ptr → Item V) (items : List Ptr) :
    (∃ out t,
      runOps { mem := mem, pq := [] }
        (items.map Op.push ++ List.replicate items.length Op.pop) = .ok (out, t) ∧
      out.Perm items ∧
      (out.map fun p => (mem p).Priority).Pairwise (fun a b => a ≥ b) ∧
      t.pq = [] ∧
      ∀ p, (t.mem p).Value = (mem p).Value ∧ (t.mem p).Priority = (mem p).Priority) ∧
    (∃ s out t,
      NewPriorityQueue mem items = .ok s ∧
      runOps s (List.replicate items.length Op.pop) = .ok (out, t) ∧
      out.Perm items ∧
      (out.map fun p => (mem p).Priority).Pairwise (fun a b => a ≥ b) ∧
      t.pq = [] ∧
      ∀ p, (t.mem p).Value = (mem p).Value ∧ (t.mem p).Priority = (mem p).Priority) := by
  constructor
  · have hempty : HeapInv ({ mem := mem, pq := [] } : Store V) := by
      intro k hk; simp at hk
    obtain ⟨s, hpush, hperm, hheap, hsame⟩ := runOps_pushes items _ hempty
    have hperm2 : s.pq.Perm items := by simpa using hperm
    obtain ⟨out, t, hpop, hperm3, hsorted, hnil, hsame2⟩ :=
      runOps_pops items.length s hperm2.length_eq hheap
    refine ⟨out, t, ?_, hperm3.trans hperm2, ?_, hnil, ?_⟩
    · rw [runOps_append, hpush]
      simp only [bind, Except.bind, hpop]
      rfl
    · have e : (out.map fun p => (mem p).Priority) = (out.map fun p => (s.mem p).Priority) :=
        List.map_congr_left (fun q _ => ((hsame q).2).symm)
      rw [e]; exact hsorted
    · intro p
      exact ⟨(hsame2 p).1.trans (hsame p).1, (hsame2 p).2.trans (hsame p).2⟩
  · obtain ⟨s, hnew, hpost⟩ := NewPriorityQueue_spec mem items
    obtain ⟨out, t, hpop, hperm3, hsorted, hnil, hsame2⟩ :=
      runOps_pops items.length s hpost.perm.length_eq hpost.heap
    refine ⟨s, out, t, hnew, hpop, hperm3.trans hpost.perm, ?_, hnil, ?_⟩
    · have e : (out.map fun p => (mem p).Priority) = (out.map fun p => (s.mem p).Priority) :=
        List.map_congr_left (fun q _ => (hpost.priority q).symm)
      rw [e]; exact hsorted
    · intro p
      exact ⟨(hsame2 p).1.trans (hpost.value p), (hsame2 p).2.trans (hpost.priority p)⟩

/-- C4: for every queue that satisfies the max-heap invariant and the index invariant, and
every item contained in it, `UpdateItem(item, v, p)` succeeds; afterwards that item's value is
`v` and its priority is `p`, every other item's value and priority are unchanged, the queue
holds the same items as before, and the max-heap invariant (and the index invariant) holds. -/
theorem C4_UpdateItem_correct (s : Store V) (item : Ptr) (v : V) (p : Int)
    (hheap : HeapInv s) (hidx : IndexInv s) (hmem : item ∈ s.pq) :
    ∃ t, UpdateItem s item v p = .ok t ∧
      (t.mem item).Value = v ∧ (t.mem item).Priority = p ∧
      (∀ q, q ≠ item →
        (t.mem q).Value = (s.mem q).Value ∧ (t.mem q).Priority = (s.mem q).Priority) ∧
      t.pq.Perm s.pq ∧ HeapInv t ∧ IndexInv t := by
  obtain ⟨t, hrun, hpost⟩ := UpdateItem_spec s item v p hidx hmem
  exact ⟨t, hrun, hpost.value, hpost.priority, hpost.others, hpost.perm, hpost.heap hheap,
    hpost.index⟩

/-- C4 at the queue `abcHeap` and its item `a`, updated to value `z` and priority 7. -/
theorem C4_UpdateItem_correct_witness :
    HeapInv abcHeap ∧ IndexInv abcHeap ∧ 0 ∈ abcHeap.pq ∧
      ∃ t, UpdateItem abcHeap 0 "z" 7 = .ok t ∧
        (t.mem 0).Value = "z" ∧ (t.mem 0).Priority = 7 ∧
        (∀ q, q ≠ 0 →
          (t.mem q).Value = (abcHeap.mem q).Value ∧
            (t.mem q).Priority = (abcHeap.mem q).Priority) ∧
        t.pq.Perm abcHeap.pq ∧ HeapInv t ∧ IndexInv t :=
  ⟨by decide, by decide, by decide,
    C4_UpdateItem_correct abcHeap 0 "z" 7 (by decide) (by decide) (by decide)⟩

/-- C5: a queue built by `NewPriorityQueue` from pairwise distinct items satisfies the index
invariant, and so does the queue after any sequence of calls in which every push is of an item
not in the queue, every pop is on a non-empty queue and every update is of a contained item;
a `PopItem` made then returns an item whose `index` field is the sentinel -1 and leaves the
index invariant in place. -/
theorem C5_index_invariant (mem : Ptr → Item V) (items : List Ptr) (ops : List (Op V))
    (hnd : items.Nodup) (hadm : admissibleFrom mem items ops = true) :
    ∃ s out t, NewPriorityQueue mem items = .ok s ∧ IndexInv s ∧
      runOps s ops = .ok (out, t) ∧ IndexInv t ∧
      (t.pq ≠ [] → ∃ p u, PopItem t = .ok (p, u) ∧ (u.mem p).index = -1 ∧ IndexInv u) := by
  obtain ⟨s, hnew, hpost⟩ := NewPriorityQueue_spec mem items
  have hadm2 : admissible s ops = true := by
    simpa [admissibleFrom, hnew] using hadm
  obtain ⟨out, t, hrun, hidx, _⟩ :=
    runOps_admissible ops s (hpost.index hnd) hpost.heap hadm2
  refine ⟨s, out, t, hnew, hpost.index hnd, hrun, hidx, ?_⟩
  intro hne
  obtain ⟨p, u, hpop, hpp⟩ := PopItem_spec t hne
  exact ⟨p, u, hpop, hpp.removed, hpp.index hidx⟩

/-- C5 at the items `a`, `b`, `c` and the sequence pop, push of the popped item, update of
`a`, pop. -/
theorem C5_index_invariant_witness :
    [0, 1, 2].Nodup ∧
      admissibleFrom abcMem [0, 1, 2] [.pop, .push 1, .update 0 "z" 7, .pop] = true ∧
      ∃ s out t, NewPriorityQueue abcMem [0, 1, 2] = .ok s ∧ IndexInv s ∧
        runOps s [.pop, .push 1, .update 0 "z" 7, .pop] = .ok (out, t) ∧ IndexInv t ∧
        (t.pq ≠ [] →
          ∃ p u, PopItem t = .ok (p, u) ∧ (u.mem p).index = -1 ∧ IndexInv u) :=
  ⟨by decide, by decide, C5_index_invariant abcMem [0, 1, 2] _ (by decide) (by decide)⟩

/-- C6, as stated, fails: `PopItem` on the empty queue `emptyStore` stops with the runtime
fault index out of range and returns nothing. -/
theorem C6_counterexample_PopItem_empty :
    emptyStore.pq = [] ∧ PopItem emptyStore = .error .indexOutOfRange ∧
      ¬ ∃ r, PopItem emptyStore = .ok r := by
  have h : PopItem emptyStore = .error .indexOutOfRange := PopItem_empty emptyStore rfl
  refine ⟨rfl, h, ?_⟩
  rintro ⟨r, hr⟩
  rw [h] at hr
  cases hr

/-- C6, amended: `PopItem` on an empty queue stops with the runtime fault index out of range;
it returns no item and no failure indicator. -/
theorem C6_PopItem_empty_faults (s : Store V) (hempty : s.pq = []) :
    PopItem s = .error .indexOutOfRange ∧ ¬ ∃ r, PopItem s = .ok r := by
  have h : PopItem s = .error .indexOutOfRange := PopItem_empty s hempty
  refine ⟨h, ?_⟩
  rintro ⟨r, hr⟩
  rw [h] at hr
  cases hr

/-- C6, amended, at the empty queue of `NewPriorityQueue()` in the memory `bacMem`. -/
theorem C6_PopItem_empty_faults_witness :
    ({ mem := bacMem, pq := [] } : Store String).pq = [] ∧
      PopItem ({ mem := bacMem, pq := [] } : Store String) = .error .indexOutOfRange ∧
      ¬ ∃ r, PopItem ({ mem := bacMem, pq := [] } : Store String) = .ok r :=
  ⟨rfl, C6_PopItem_empty_faults _ rfl⟩

/-- C7: for every list of items, the empty list included, `NewPriorityQueue(items...)`
succeeds and returns a queue whose `Len` is the number of items, whose contents are a
permutation of the items, in which no value or priority changed, that satisfies the max-heap
invariant and, when the items are pairwise distinct, the index invariant. -/
theorem C7_NewPriorityQueue_correct (mem : Ptr → Item V) (items : List Ptr) :
    ∃ s, NewPriorityQueue mem items = .ok s ∧
      PriorityQueue.Len s = (items.length : Int) ∧
      s.pq.Perm items ∧
      (∀ p, (s.mem p).Value = (mem p).Value ∧ (s.mem p).Priority = (mem p).Priority) ∧
      HeapInv s ∧
      (items.Nodup → IndexInv s) := by
  obtain ⟨s, hnew, hpost⟩ := NewPriorityQueue_spec mem items
  refine ⟨s, hnew, ?_, hpost.perm, fun p => ⟨hpost.value p, hpost.priority p⟩, hpost.heap,
    hpost.index⟩
  simp [PriorityQueue.Len, hpost.perm.length_eq]

/-- C8: for every list of values pushed with `Push` onto a fresh `NewQueue()`, with no pops
in between, the next calls of `Pop`, as many as there were values, return each value with
`canGet = true`, in the order of the pushes, and leave the queue empty. -/
theorem C8_fifo_order (vs : List V) :
    Queue.run NewQueue (vs.map QOp.push ++ List.replicate vs.length QOp.pop) =
      .ok (vs.map (fun v => (some v, true)), { data := [] }) := by
  obtain ⟨q, hrun, hq⟩ := Queue.run_refines
    (vs.map QOp.push ++ List.replicate vs.length QOp.pop) (NewQueue : Queue V)
  have e : specRun (NewQueue : Queue V).data.reverse
      (vs.map QOp.push ++ List.replicate vs.length QOp.pop) =
      (vs.map (fun v => (some v, true)), []) := by
    rw [specRun_pushes]
    simpa [NewQueue] using specRun_pops vs
  rw [e] at hrun hq
  have hq2 : q = { data := [] } := by
    cases q with
    | mk data => simpa using hq
  rw [hrun, hq2]

/-- C9: `Pop` on a fresh `NewQueue()` returns `(nil, false)` and leaves the queue as it was,
with `Size` 0 and `IsEmpty` true; and after any sequence of `Push` and `Pop` calls on a fresh
queue in which as many pops succeeded as there were pushes, `Pop` again returns
`(nil, false)` and leaves the queue as it was, with `Size` 0 and `IsEmpty` true. -/
theorem C9_Pop_on_empty_queue :
    ((NewQueue : Queue V).Pop = .ok ((none, false), NewQueue) ∧
      (NewQueue : Queue V).Size = 0 ∧ (NewQueue : Queue V).IsEmpty = true) ∧
    ∀ ops : List (QOp V), ∃ outs q, Queue.run NewQueue ops = .ok (outs, q) ∧
      (countOk outs = countPush ops →
        q.Pop = .ok ((none, false), q) ∧ q.Size = 0 ∧ q.IsEmpty = true) := by
  refine ⟨⟨rfl, rfl, rfl⟩, ?_⟩
  intro ops
  obtain ⟨q, hrun, hq⟩ := Queue.run_refines ops (NewQueue : Queue V)
  refine ⟨_, q, hrun, ?_⟩
  intro hcount
  have hlen := specRun_length ops (NewQueue : Queue V).data.reverse
  rw [← hq, hcount] at hlen
  have hnil : q.data = [] := by
    have : q.data.length = 0 := by simpa [NewQueue] using hlen
    exact List.length_eq_zero.mp this
  exact ⟨Queue.Pop_nil q hnil, by simp [Queue.Size, hnil], (Queue.IsEmpty_iff q).mpr hnil⟩

/-- C10: the queue refines the abstract FIFO list, read from the back of `data` to its front:
`Push(v)` appends `v` at the tail of the abstract list, `Pop` returns what the abstract pop
returns (the head with `ok = true`, or no value with `ok = false` and no change when the list
is empty), and so every sequence of `Push` and `Pop` calls on a fresh `NewQueue()` succeeds
with the results of the abstract run and ends in the state of the abstract run. -/
theorem C10_refines_fifo_list :
    (∀ (q : Queue V) (v : V), (q.Push v).data.reverse = specPush q.data.reverse v) ∧
    (∀ q : Queue V, ∃ q2, q.Pop = .ok ((specPop q.data.reverse).1, q2) ∧
      q2.data.reverse = (specPop q.data.reverse).2) ∧
    (∀ ops : List (QOp V), ∃ q,
      Queue.run NewQueue ops = .ok ((specRun ([] : List V) ops).1, q) ∧
      q.data.reverse = (specRun ([] : List V) ops).2) := by
  refine ⟨?_, Queue.Pop_refines, ?_⟩
  · intro q v
    simp [Queue.Push, specPush]
  · intro ops
    exact Queue.run_refines ops (NewQueue : Queue V)

/-! ## The claims, continued -/

/-- C11: after every sequence of `Push` and `Pop` calls on a fresh `NewQueue()`, `Size`
returns the number of elements held, which is the number of pushes minus the number of
successful pops, and `IsEmpty` returns true exactly when `Size` returns 0. `Size` and
`IsEmpty` only read the list: with the mutex in the state, `Size` ends with the same list and
an unlocked mutex, and `IsEmpty` ends with the same list. -/
theorem C11_Size_and_IsEmpty (ops : List (QOp V)) :
    (∃ outs q, Queue.run NewQueue ops = .ok (outs, q) ∧
      q.Size = (q.data.length : Int) ∧
      q.Size = (countPush ops : Int) - (countOk outs : Int) ∧
      (q.IsEmpty = true ↔ q.Size = 0)) ∧
    (∀ lq : LockedQueue V, lq.locked = false →
      ∃ t, lq.Size = .ok ((lq.data.length : Int), t) ∧ t.data = lq.data ∧
        t.locked = false) ∧
    (∀ lq : LockedQueue V, (lq.IsEmpty).2.data = lq.data ∧
      ((lq.IsEmpty).1 = true ↔ lq.data = [])) := by
  refine ⟨?_, ?_, ?_⟩
  · obtain ⟨q, hrun, hq⟩ := Queue.run_refines ops (NewQueue : Queue V)
    refine ⟨_, q, hrun, rfl, ?_, ?_⟩
    · have hlen := specRun_length ops (NewQueue : Queue V).data.reverse
      rw [← hq] at hlen
      have hlen2 : q.data.length + countOk (specRun (NewQueue : Queue V).data.reverse ops).1 =
          countPush ops := by simpa [NewQueue] using hlen
      simp only [Queue.Size]
      omega
    · rw [Queue.IsEmpty_iff]
      simp [Queue.Size]
  · intro lq h
    obtain ⟨t, hrun, hl, hd, _⟩ := LockedQueue.Size_guarded lq h
    exact ⟨t, hrun, hd, hl⟩
  · intro lq
    obtain ⟨_, _, hd, he⟩ := LockedQueue.IsEmpty_unguarded lq
    exact ⟨hd, he⟩

/-- C12, the code at the failing input: on a fresh queue `IsEmpty` reads the length of the
list without taking the mutex, so its events are a single read and not those of a call that
holds the mutex; `Size`, which reads the same length on the same queue, locks first and
unlocks last. -/
theorem C12_IsEmpty_takes_no_lock :
    ((LockedQueue.New : LockedQueue String).IsEmpty).2.trace = [Event.read] ∧
      Event.lock ∉ ((LockedQueue.New : LockedQueue String).IsEmpty).2.trace ∧
      ¬ Guarded ((LockedQueue.New : LockedQueue String).IsEmpty).2.trace ∧
      ∃ n t, (LockedQueue.New : LockedQueue String).Size = .ok (n, t) ∧
        t.trace = [Event.lock, Event.read, Event.unlock] ∧ Guarded t.trace := by
  refine ⟨rfl, by decide, ?_, 0, _, rfl, rfl, [Event.read], rfl, ?_⟩
  · rintro ⟨mid, h, _⟩
    have h2 : [Event.read] = Event.lock :: (mid ++ [Event.unlock]) := h
    cases h2
  · intro e he
    simp at he
    exact Or.inl he

/-- The methods that lock: called with the mutex unlocked, each of `Push`, `Pop`, the typed
pops and `Size` succeeds, takes the mutex first, only reads and writes the list until it
releases the mutex as its last step, and ends with the mutex unlocked, on the empty and on the
non-empty path alike. `IsEmpty` only appends a read to the events and leaves the mutex as it
found it, so the emptiness check inside `Pop` does not lock a second time (a `Lock` of the
held mutex would never return). -/
theorem locking_methods_hold_mutex (q : LockedQueue V) (h : q.locked = false) :
    (∀ v, ∃ t, q.Push v = .ok t ∧ t.locked = false ∧
      ∃ events, t.trace = q.trace ++ events ∧ Guarded events) ∧
    (∃ r t, q.Pop = .ok (r, t) ∧ t.locked = false ∧
      ∃ events, t.trace = q.trace ++ events ∧ Guarded events) ∧
    (∀ (α E : Type) (conv : V → α × Option E) (zero : α),
      ∃ r t, LockedQueue.PopTyped conv zero q = .ok (r, t) ∧ t.locked = false ∧
        ∃ events, t.trace = q.trace ++ events ∧ Guarded events) ∧
    (∃ n t, q.Size = .ok (n, t) ∧ t.locked = false ∧
      ∃ events, t.trace = q.trace ++ events ∧ Guarded events) ∧
    (∀ q2 : LockedQueue V, (q2.IsEmpty).2.trace = q2.trace ++ [Event.read] ∧
      (q2.IsEmpty).2.locked = q2.locked) ∧
    (∀ q2 : LockedQueue V, q2.locked = true → q2.Lock = .error .deadlock) := by
  refine ⟨?_, ?_, ?_, ?_, ?_, ?_⟩
  · intro v
    obtain ⟨t, hrun, hl, _, hev⟩ := LockedQueue.Push_guarded q v h
    exact ⟨t, hrun, hl, hev⟩
  · obtain ⟨r, t, hrun, hl, _, hev⟩ :=
      LockedQueue.PopWith_guarded (none, false) (fun value : V => (some value, true)) q h
    exact ⟨r, t, hrun, hl, hev⟩
  · intro α E conv zero
    obtain ⟨r, t, hrun, hl, _, hev⟩ :=
      LockedQueue.PopWith_guarded (zero, false, (none : Option E))
        (fun value : V => ((conv value).1, true, (conv value).2)) q h
    exact ⟨r, t, hrun, hl, hev⟩
  · obtain ⟨t, hrun, hl, _, hev⟩ := LockedQueue.Size_guarded q h
    exact ⟨_, t, hrun, hl, hev⟩
  · intro q2
    obtain ⟨ht, hl, _, _⟩ := LockedQueue.IsEmpty_unguarded q2
    exact ⟨ht, hl⟩
  · intro q2 h2
    exact LockedQueue.Lock_held q2 h2

/-- The fresh queue has an unlocked mutex, and a `Pop` on it takes and releases the mutex. -/
theorem locking_methods_hold_mutex_fresh :
    (LockedQueue.New : LockedQueue String).locked = false ∧
      ∃ r t, (LockedQueue.New : LockedQueue String).Pop = .ok (r, t) ∧ t.locked = false ∧
        ∃ events, t.trace = (LockedQueue.New : LockedQueue String).trace ++ events ∧
          Guarded events :=
  ⟨rfl, (locking_methods_hold_mutex (LockedQueue.New : LockedQueue String) rfl).2.1⟩

/-- C14: starting from an empty queue, `PushItem` of `("a", 1)`, `("b", 5)`, `("c", 3)` in
that order and then three `PopItem` calls return `("b", 5)`, then `("c", 3)`, then
`("a", 1)`, and leave the queue empty. -/
theorem C14_scenario_abc :
    ∃ out t, runOps ({ mem := abcMem, pq := [] } : Store String)
        [.push 0, .push 1, .push 2, .pop, .pop, .pop] = .ok (out, t) ∧
      contents t out = [("b", 5), ("c", 3), ("a", 1)] ∧ t.pq = [] :=
  ⟨_, _, rfl, by decide, by decide⟩

/-- C15: on a fresh `NewQueue()`, after `Push("x")`, `Push("y")`, `Push("z")`, three `Pop`
calls return `("x", true)`, `("y", true)`, `("z", true)` in that order, and `IsEmpty()` is
true afterwards. -/
theorem C15_scenario_xyz :
    ∃ q, Queue.run (NewQueue : Queue String)
        [.push "x", .push "y", .push "z", .pop, .pop, .pop] =
          .ok ([(some "x", true), (some "y", true), (some "z", true)], q) ∧
      q.IsEmpty = true :=
  ⟨_, rfl, by decide⟩

/-- C16: for every queue that satisfies the max-heap and index invariants and every item at
a slot `i` of it, `UpdateItem` succeeds and leaves the item at a slot `j`, recorded in its
`index` field, with `j ≤ i` when the new priority is at least the old one and `i ≤ j` when the
new priority is at most the old one. -/
theorem C16_direction_of_fix (s : Store V) (item : Ptr) (v : V) (p : Int) (i : Nat)
    (hheap : HeapInv s) (hidx : IndexInv s) (hi : i < s.pq.length) (hslot : slot s i = item) :
    ∃ t, ∃ j : Nat, UpdateItem s item v p = .ok t ∧ j < t.pq.length ∧ slot t j = item ∧
      (t.mem item).index = (j : Int) ∧
      ((s.mem item).Priority ≤ p → j ≤ i) ∧ (p ≤ (s.mem item).Priority → i ≤ j) := by
  have hindex : (setValuePriority s.mem item v p item).index = (i : Int) := by
    rw [setValuePriority_index, ← hslot]; exact hidx i hi
  have hrun : UpdateItem s item v p =
      heap.Fix { s with mem := setValuePriority s.mem item v p } (i : Int) := by
    rw [UpdateItem]; simp only [hindex]
  have hidx0 : IndexInv { s with mem := setValuePriority s.mem item v p } := by
    intro c hc
    show (setValuePriority s.mem item v p (slot s c)).index = _
    rw [setValuePriority_index]; exact hidx c hc
  have hprio : ∀ c, c < s.pq.length → c ≠ i →
      prioAt { s with mem := setValuePriority s.mem item v p } c = prioAt s c := by
    intro c hc hck
    have hne : slot s c ≠ item := fun e => hck (slot_injective hidx hc hi (e.trans hslot.symm))
    show (setValuePriority s.mem item v p (slot s c)).Priority = _
    rw [setValuePriority_of_ne _ _ _ hne]; rfl
  have hnew : prioAt { s with mem := setValuePriority s.mem item v p } i = p := by
    show (setValuePriority s.mem item v p (slot s i)).Priority = _
    rw [hslot]; exact (setValuePriority_same _ _ _ _).2
  have hold : prioAt s i = (s.mem item).Priority := by rw [prioAt, hslot]
  have hslot0 : slot { s with mem := setValuePriority s.mem item v p } i = item := hslot
  have hch : (s.mem item).Priority ≤ p →
      ChildrenLe (prioAt { s with mem := setValuePriority s.mem item v p }) s.pq.length i := by
    intro hle c hc0 hcn hcp
    rw [hprio c hcn (by omega), hnew]
    have := hheap c hcn hc0
    rw [hcp, hold] at this
    exact le_trans this hle
  have hedge : p ≤ (s.mem item).Priority → 0 < i →
      prioAt { s with mem := setValuePriority s.mem item v p } i ≤
        prioAt { s with mem := setValuePriority s.mem item v p } ((i - 1) / 2) := by
    intro hle hi0
    rw [hnew, hprio _ (by omega) (by omega)]
    have := hheap i hi hi0
    rw [hold] at this
    exact le_trans hle this
  have hfinal : ∀ (t : Store V) (j : Nat),
      Rearranged { s with mem := setValuePriority s.mem item v p } t → j < s.pq.length →
      slot t j = item → j < t.pq.length ∧ slot t j = item ∧ (t.mem item).index = (j : Int) := by
    intro t j hrel hj hsl
    have hjt : j < t.pq.length := by rw [hrel.length]; exact hj
    refine ⟨hjt, hsl, ?_⟩
    have := hrel.index hidx0 j hjt
    rwa [hsl] at this
  by_cases hup : (s.mem item).Priority ≤ p
  · by_cases hdn : p ≤ (s.mem item).Priority
    · have hfix := Fix_stay { s with mem := setValuePriority s.mem item v p } hi (hch hup)
        (hedge hdn)
      obtain ⟨h1, h2, h3⟩ := hfinal _ i (Rearranged.refl _) hi hslot0
      exact ⟨_, i, hrun.trans hfix, h1, h2, h3, fun _ => le_refl _, fun _ => le_refl _⟩
    · obtain ⟨t, j, hfix, hpost⟩ :=
        Fix_up { s with mem := setValuePriority s.mem item v p } hi (hch hup)
      have hji : j ≤ i := hpost.le
      obtain ⟨h1, h2, h3⟩ := hfinal t j hpost.rel (by omega) (hpost.moved.trans hslot0)
      exact ⟨t, j, hrun.trans hfix, h1, h2, h3, fun _ => hji, fun h => absurd h hdn⟩
  · have hdn : p ≤ (s.mem item).Priority := le_of_lt (not_le.mp hup)
    obtain ⟨t, j, hfix, hpost⟩ :=
      Fix_down { s with mem := setValuePriority s.mem item v p } hi (hedge hdn)
    have hij : i ≤ j := hpost.ge
    obtain ⟨h1, h2, h3⟩ := hfinal t j hpost.rel (hpost.lt hi) (hpost.moved.trans hslot0)
    exact ⟨t, j, hrun.trans hfix, h1, h2, h3, fun h => absurd h hup, fun _ => hij⟩

/-- C16 at the queue `abcHeap` and its item `a` in slot 1, updated to priority 7. -/
theorem C16_direction_of_fix_witness :
    HeapInv abcHeap ∧ IndexInv abcHeap ∧ 1 < abcHeap.pq.length ∧ slot abcHeap 1 = 0 ∧
      ∃ t, ∃ j : Nat, UpdateItem abcHeap 0 "z" 7 = .ok t ∧ j < t.pq.length ∧ slot t j = 0 ∧
        (t.mem 0).index = (j : Int) ∧
        ((abcHeap.mem 0).Priority ≤ 7 → j ≤ 1) ∧ (7 ≤ (abcHeap.mem 0).Priority → 1 ≤ j) :=
  ⟨by decide, by decide, by decide, by decide,
    C16_direction_of_fix abcHeap 0 "z" 7 1 (by decide) (by decide) (by decide) (by decide)⟩

/-- C17: for every queue, the empty one included, and every item whose `index` field is -1
(as `PopItem` leaves it), `UpdateItem(item, v, p)` succeeds, sets that item's value and
priority, changes no other item and no `index` field, and leaves the slice as it was. -/
theorem C17_UpdateItem_of_removed_item (s : Store V) (item : Ptr) (v : V) (p : Int)
    (hremoved : (s.mem item).index = -1) :
    ∃ t, UpdateItem s item v p = .ok t ∧ t.pq = s.pq ∧
      (t.mem item).Value = v ∧ (t.mem item).Priority = p ∧
      (∀ q, (t.mem q).index = (s.mem q).index) ∧
      (∀ q, q ≠ item → t.mem q = s.mem q) := by
  refine ⟨_, UpdateItem_removed s item v p hremoved, rfl, ?_, ?_, ?_, ?_⟩
  · exact (setValuePriority_same _ _ _ _).1
  · exact (setValuePriority_same _ _ _ _).2
  · intro q; exact setValuePriority_index _ _ _ _ _
  · intro q hq; exact setValuePriority_of_ne _ _ _ hq

/-- C17 at the empty queue, for the item `b` with its `index` field set to -1. -/
theorem C17_UpdateItem_of_removed_item_witness :
    (setIndex abcMem 1 (-1) 1).index = -1 ∧
      ∃ t, UpdateItem ({ mem := setIndex abcMem 1 (-1), pq := [] } : Store String) 1 "z" 9 =
          .ok t ∧ t.pq = [] ∧
        (t.mem 1).Value = "z" ∧ (t.mem 1).Priority = 9 ∧
        (∀ q, (t.mem q).index = (setIndex abcMem 1 (-1) q).index) ∧
        (∀ q, q ≠ 1 → t.mem q = setIndex abcMem 1 (-1) q) :=
  ⟨by decide, C17_UpdateItem_of_removed_item
    ({ mem := setIndex abcMem 1 (-1), pq := [] } : Store String) 1 "z" 9 (by decide)⟩

/-- C18: ties are not FIFO-stable: `PushItem` of `a`, `b`, `c`, all of priority 1, onto an
empty queue and then three `PopItem` calls return `a`, then `c`, then `b`, which is not the
order of insertion. -/
theorem C18_ties_not_fifo :
    ∃ out t, runOps ({ mem := tieMem, pq := [] } : Store String)
        [.push 0, .push 1, .push 2, .pop, .pop, .pop] = .ok (out, t) ∧
      out = [0, 2, 1] ∧ out ≠ [0, 1, 2] ∧
      contents t out = [("a", 1), ("c", 1), ("b", 1)] :=
  ⟨_, _, rfl, by decide, by decide, by decide⟩

/-- C19: each of `PopInt`, `PopBool`, `PopFloat`, `PopString`, for any conversion, satisfies
`TypedPopSpec`: it returns `canGet = false` exactly when the queue was empty, then with the
zero value, a nil error and the queue unchanged; on a non-empty queue it returns
`canGet = true` with the conversion's value and error for the oldest element, which it
removes; so `canGet = true` with a non-nil error is exactly a conversion error on the oldest
element. -/
theorem C19_typed_pops (E F : Type) (zero : F) (ToIntE : V → Int × Option E)
    (ToBoolE : V → Bool × Option E) (ToFloat64E : V → F × Option E)
    (ToStringE : V → String × Option E) :
    TypedPopSpec (Queue.PopInt ToIntE) ToIntE 0 ∧
    TypedPopSpec (Queue.PopBool ToBoolE) ToBoolE false ∧
    TypedPopSpec (Queue.PopFloat zero ToFloat64E) ToFloat64E zero ∧
    TypedPopSpec (Queue.PopString ToStringE) ToStringE "" := by
  have key : ∀ (α : Type) (conv : V → α × Option E) (z : α),
      TypedPopSpec (Queue.PopTyped conv z) conv z := by
    intro α conv z q
    rcases Queue.PopTyped_cases conv z q with ⟨hd, hrun⟩ | ⟨l, v, hd, hrun⟩
    · refine ⟨_, _, hrun, ?_, fun _ => ⟨rfl, rfl⟩, ?_, ?_⟩
      · simp [hd]
      · intro l v h; rw [hd] at h; simp at h
      · constructor
        · rintro ⟨h, _⟩; simp at h
        · rintro ⟨l, v, h, _⟩; rw [hd] at h; simp at h
    · refine ⟨_, _, hrun, ?_, ?_, ?_, ?_⟩
      · simp [hd]
      · intro h; rw [hd] at h; simp at h
      · intro l2 v2 h
        rw [hd] at h
        obtain ⟨h1, h2⟩ := List.append_inj' h rfl
        have h3 : v = v2 := by simpa using h2
        subst h1; subst h3
        exact ⟨rfl, rfl⟩
      · constructor
        · rintro ⟨_, h⟩; exact ⟨l, v, hd, h⟩
        · rintro ⟨l2, v2, h, he⟩
          rw [hd] at h
          obtain ⟨_, h2⟩ := List.append_inj' h rfl
          have h3 : v = v2 := by simpa using h2
          subst h3
          exact ⟨rfl, he⟩
  exact ⟨key Int ToIntE 0, key Bool ToBoolE false, key F ToFloat64E zero,
    key String ToStringE ""⟩

/-- C20: for every queue whose oldest element is `v`, each of `PopInt`, `PopBool`,
`PopFloat`, `PopString`, for any conversion, removes `v` and leaves the other elements in
their order, with `Size` one less, whether the conversion of `v` returns an error or not. -/
theorem C20_typed_pop_consumes (E F : Type) (zero : F) (ToIntE : V → Int × Option E)
    (ToBoolE : V → Bool × Option E) (ToFloat64E : V → F × Option E)
    (ToStringE : V → String × Option E) (q : Queue V) (l : List V) (v : V)
    (hdata : q.data = l ++ [v]) :
    Queue.PopInt ToIntE q = .ok (((ToIntE v).1, true, (ToIntE v).2), { data := l }) ∧
    Queue.PopBool ToBoolE q = .ok (((ToBoolE v).1, true, (ToBoolE v).2), { data := l }) ∧
    Queue.PopFloat zero ToFloat64E q =
      .ok (((ToFloat64E v).1, true, (ToFloat64E v).2), { data := l }) ∧
    Queue.PopString ToStringE q =
      .ok (((ToStringE v).1, true, (ToStringE v).2), { data := l }) ∧
    Queue.Size ({ data := l } : Queue V) = q.Size - 1 := by
  refine ⟨Queue.PopTyped_append _ _ q l v hdata, Queue.PopTyped_append _ _ q l v hdata,
    Queue.PopTyped_append _ _ q l v hdata, Queue.PopTyped_append _ _ q l v hdata, ?_⟩
  simp [Queue.Size, hdata]

/-- C20 at the queue holding the integer 5 (newest) and the text `x` (oldest), with a
conversion to `int` that fails on a text: `PopInt` returns the error and removes the text. -/
theorem C20_typed_pop_consumes_witness :
    ({ data := [Dyn.int 5, Dyn.text "x"] } : Queue Dyn).data = [Dyn.int 5] ++ [Dyn.text "x"] ∧
      (intOfDyn (Dyn.text "x")).2 ≠ none ∧
      Queue.PopInt intOfDyn ({ data := [Dyn.int 5, Dyn.text "x"] } : Queue Dyn) =
        .ok (((intOfDyn (Dyn.text "x")).1, true, (intOfDyn (Dyn.text "x")).2),
          { data := [Dyn.int 5] }) :=
  ⟨rfl, by decide,
    (C20_typed_pop_consumes String Int 0 intOfDyn (fun _ => (false, none))
      (fun _ => (0, none)) (fun _ => ("", none))
      ({ data := [Dyn.int 5, Dyn.text "x"] } : Queue Dyn) [Dyn.int 5] (Dyn.text "x") rfl).1⟩

end Gcollections
